import Mathlib

/-!
Verification of the email-to-speech text normalization engine of
`email_processor/api.py` (class `EmailProcessor`).

The Python code is shallowly embedded: strings become `List Char` / `String`,
the regular-expression rewrites become explicit leftmost scanners with the
same leftmost-greedy single-pass semantics as `re.sub`, the mutable
BeautifulSoup tree becomes an immutable `Node` tree, and exceptions become
`Except`.  Whitespace and digit character classes are those of Python's
`\s` / `\d` restricted to the ASCII range exercised by the code and its data.
-/

set_option maxRecDepth 10000

/-- Python's `\s` whitespace class (and `str.strip` / `str.isspace`),
restricted to the ASCII range. -/
def isPyWS (c : Char) : Bool :=
  c = ' ' || c = '\t' || c = '\n' || c = '\x0d' || c = '\x0b' || c = '\x0c'

/-- The character class `[^\S\r\n]` of `api.py` line 188: whitespace that is
neither a newline nor a carriage return (horizontal whitespace). -/
def isHWS (c : Char) : Bool :=
  isPyWS c && !(c = '\n') && !(c = '\x0d')

/-- ASCII decimal digit, Python's `\d` on the data exercised. -/
def isDig (c : Char) : Bool := c.isDigit

/-- Python's `\w` word-character class (letters, digits, underscore),
restricted to the ASCII range. -/
def isWordCh (c : Char) : Bool := c.isAlphanum || c = '_'

/-- The part of a whitespace run that follows its last newline. -/
def afterLastNl (w : List Char) : List Char :=
  (w.reverse.takeWhile (fun c => !(c = '\n'))).reverse

/-- `startsWith pat s`: `pat` is a prefix of `s`. -/
def startsWith : List Char → List Char → Bool
  | [], _ => true
  | _ :: _, [] => false
  | p :: ps, c :: cs => p = c && startsWith ps cs

/-- `containsSub pat s`: `pat` occurs as a contiguous substring of `s`. -/
def containsSub (pat : List Char) : List Char → Bool
  | [] => startsWith pat []
  | c :: cs => startsWith pat (c :: cs) || containsSub pat cs

/-! ## The whitespace normalizer (`api.py` lines 183-192)

Each `re.sub` is rendered as a scanner that walks the text left to right,
rewriting each leftmost match exactly as the (greedy, backtracking) regular
expression would and continuing after the match, as `re.sub` does. -/

/-- `re.sub(r"=\s*\n", "", text)` (line 184).  At each `=` whose following
whitespace run contains a newline, the greedy `\s*\n` consumes the run up to
and including its *last* newline; the match is deleted. -/
def step1F : Nat → List Char → List Char
  | 0, s => s
  | n + 1, s =>
    match s with
    | [] => []
    | c :: rest =>
      if c = '=' then
        let w := rest.takeWhile isPyWS
        if '\n' ∈ w then
          step1F n (afterLastNl w ++ rest.drop w.length)
        else
          '=' :: step1F n rest
      else
        c :: step1F n rest

def step1 (s : List Char) : List Char := step1F s.length s

/-- Number of newline characters in a list. -/
def countNl (l : List Char) : Nat := l.countP (fun c => c = '\n')

/-- `re.sub(r"\n\s*\n\s*\n+", "\n\n", text)` (line 186).  A match starts at a
newline whose whitespace run (from that newline on) contains at least three
newlines, and extends through the last newline of the run; it is replaced by
two newlines. -/
def step2F : Nat → List Char → List Char
  | 0, s => s
  | n + 1, s =>
    match s with
    | [] => []
    | c :: rest =>
      if c = '\n' then
        let w := rest.takeWhile isPyWS
        if 2 ≤ countNl w then
          '\n' :: '\n' :: step2F n (afterLastNl w ++ rest.drop w.length)
        else
          '\n' :: step2F n rest
      else
        c :: step2F n rest

def step2 (s : List Char) : List Char := step2F s.length s

/-- `re.sub(r"[^\S\r\n]+", " ", text)` (line 188): each maximal run of
horizontal whitespace becomes a single space.  The space is emitted at the
last character of the run. -/
def step3 : List Char → List Char
  | [] => []
  | [c] => if isHWS c then [' '] else [c]
  | c :: d :: rest =>
    if isHWS c then
      (if isHWS d then step3 (d :: rest) else ' ' :: step3 (d :: rest))
    else c :: step3 (d :: rest)

/-- `re.sub(r" +(\n)", r"\1", text)` (line 190): spaces immediately preceding
a newline are deleted.  A space is deleted iff only spaces stand between it
and the next newline. -/
def step4 : List Char → List Char
  | [] => []
  | c :: rest =>
    if c = ' ' then
      if (rest.dropWhile (fun d => d = ' ')).head? = some '\n' then
        step4 rest
      else
        ' ' :: step4 rest
    else
      c :: step4 rest

/-- Python `str.strip()`: remove leading and trailing whitespace. -/
def stripWS (s : List Char) : List Char :=
  ((s.dropWhile isPyWS).reverse.dropWhile isPyWS).reverse

/-- Lines 183-192 of `api.py`: the full whitespace-normalizing rewrite
sequence applied after flattening the markup to text. -/
def normWS (s : List Char) : List Char :=
  stripWS (step4 (step3 (step2 (step1 s))))

/-! ## The footnote inliner (`_inline_footnotes`, `api.py` lines 194-229) -/

/-- The error values the engine can raise: `NoHtmlContentFoundError`,
`TypeError` (from `_decode_payload`), and `ValueError` (from
`_inline_footnotes`), each carrying its message where the code formats one. -/
inductive PErr where
  | noHtmlContentFound : PErr
  | typeError : PErr
  | valueError (msg : String) : PErr
deriving DecidableEq, Repr

/-- One match attempt of `footnote_pattern = ^\[(\d+)\]\s*(.+)$` (line 209,
`re.MULTILINE`) at a line start.  `\s` matches `\n` (MULTILINE only changes
`^`/`$`), so the greedy `\s*` crosses line breaks and a single match can span
several lines.  After `[digits]`, let `w` be the maximal whitespace run:

* if a non-whitespace character follows `w`, group 2 runs from that character
  to the end of its line (`.` excludes `\n`, `$` matches before `\n` or at
  the end);
* if `w` runs to the end of the text, the greedy `\s*` backtracks: the first
  success puts `(.+)` at the last character of `w` that is not `\n`, so group
  2 is that single character and the trailing newlines stay unconsumed; if
  `w` is empty or all newlines, there is no match.

Returns `(group1, group2, text after the match)`. -/
def matchFn : List Char → Option (List Char × List Char × List Char)
  | [] => none
  | c :: rest =>
    if c = '[' then
      let ds := rest.takeWhile isDig
      if ds = [] then none
      else
        match rest.drop ds.length with
        | ']' :: q =>
          let w := q.takeWhile isPyWS
          match q.drop w.length with
          | [] =>
            let nls := w.reverse.takeWhile (fun c => c = '\n')
            match w.reverse.drop nls.length with
            | [] => none
            | g :: _ => some (ds, [g], nls.reverse)
          | g :: tail2 =>
            let g2 := (g :: tail2).takeWhile (fun c => !(c = '\n'))
            some (ds, g2, (g :: tail2).drop g2.length)
        | _ => none
    else none

/-- The regex engine's left-to-right scan shared by `findall` (line 211) and
`sub` (line 214): `^` restricts match attempts to line starts (`bol`), a
match consumes its whole (possibly multi-line) span and scanning resumes
after it, other characters are copied.  Returns the capture-group pairs in
match order together with the text with every match deleted.  `fuel` bounds
the recursion; each step consumes at least one character. -/
def fnScanF : Nat → Bool → List Char →
    List (List Char × List Char) × List Char
  | 0, _, s => ([], s)
  | n + 1, bol, s =>
    match s with
    | [] => ([], [])
    | c :: rest =>
      match (if bol then matchFn (c :: rest) else none) with
      | some (num, txt, rem) =>
        let p := fnScanF n false rem
        ((num, txt) :: p.1, p.2)
      | none =>
        let p := fnScanF n (decide (c = '\n')) rest
        (p.1, c :: p.2)

/-- `footnote_pattern.findall(text)` (line 211): the capture-group pairs of
every match, in order. -/
def collectDefs (text : List Char) : List (List Char × List Char) :=
  (fnScanF text.length true text).1

/-- `dict(...)` over the `findall` result: lookup in which a later definition
of the same identifier overwrites an earlier one. -/
def tblLookup (tbl : List (List Char × List Char)) (n : List Char) :
    Option (List Char) :=
  ((tbl.filter (fun p => p.1 = n)).getLast?).map (fun p => p.2)

/-- `footnote_pattern.sub("", text)` (line 214): every match span (possibly
multi-line) is deleted; unconsumed characters, including a trailing newline
run the backtracked match leaves behind, are kept. -/
def removeDefs (text : List Char) : List Char :=
  (fnScanF text.length true text).2

/-- The inline rendering built by `replace_pointer` (line 221) for a footnote
with definition text `d`. -/
def render (d : List Char) : List Char :=
  "Footnote begins. ".data ++ stripWS d ++ " Footnote ends.".data

/-- The `ValueError` raised by `replace_pointer` (line 223) for a missing
footnote identifier `n`. -/
def fnErr (n : List Char) : PErr :=
  .valueError ("Footnote " ++ String.mk n ++ " not found.")

/-- `ptrAt rest`: immediately after a `[`, the input continues with a
nonempty digit run followed by `]` — i.e. `\[(\d+)\]` matches here. -/
def ptrAt (rest : List Char) : Bool :=
  decide (rest.takeWhile isDig ≠ []) &&
    decide ((rest.drop (rest.takeWhile isDig).length).head? = some ']')

/-- The input remaining after the matched `[digits]` span. -/
def ptrSpanTail (rest : List Char) : List Char :=
  (rest.drop (rest.takeWhile isDig).length).tail

/-- `inline_pattern.sub(replace_pointer, text)` (line 226) with
`inline_pattern = \[(\d+)\]`: scan left to right; at each `[` followed by a
nonempty digit run and `]`, replace the match by the inline rendering of the
footnote, or fail with `ValueError` if the identifier has no entry; inserted
replacement text is not rescanned. -/
def subPtrF (tbl : List (List Char × List Char)) :
    Nat → List Char → Except PErr (List Char)
  | 0, s => .ok s
  | _ + 1, [] => .ok []
  | n + 1, c :: rest =>
    if c = '[' && ptrAt rest then
      match tblLookup tbl (rest.takeWhile isDig) with
      | some d => (subPtrF tbl n (ptrSpanTail rest)).map (fun out => render d ++ out)
      | none => .error (fnErr (rest.takeWhile isDig))
    else
      (subPtrF tbl n rest).map (fun out => c :: out)

def subPtr (tbl : List (List Char × List Char)) (s : List Char) :
    Except PErr (List Char) :=
  subPtrF tbl s.length s

/-- `EmailProcessor._inline_footnotes` (lines 194-229): collect the footnote
table, delete the definition lines, substitute every pointer, strip. -/
def inlineFootnotes (text : List Char) : Except PErr (List Char) :=
  (subPtr (collectDefs text) (removeDefs text)).map stripWS

/-- `hasPtr s`: some substring of `s` matches `\[(\d+)\]`. -/
def hasPtr : List Char → Bool
  | [] => false
  | c :: rest => (c = '[' && ptrAt rest) || hasPtr rest

/-- `ptrOccurs s n`: the pointer `[n]` occurs as a substring of `s`
(with `n` a nonempty digit string). -/
def ptrOccurs (s n : List Char) : Bool :=
  decide (n ≠ []) && n.all isDig && containsSub ('[' :: n ++ [']']) s

/-- Every pointer occurring in `s` has an entry in `tbl`. -/
def allPtrsDefined (tbl : List (List Char × List Char)) : List Char → Bool
  | [] => true
  | c :: rest =>
    (!(c = '[' && ptrAt rest) || (tblLookup tbl (rest.takeWhile isDig)).isSome)
      && allPtrsDefined tbl rest

/-! ## The metadata extractor (`_extract_date_and_subject`, lines 115-135) -/

/-- `re.sub(r"[^\w\s-]", "", raw_subject)` (line 132): delete every character
that is not a word character, whitespace, or hyphen. -/
def removePunc (s : List Char) : List Char :=
  s.filter (fun c => isWordCh c || isPyWS c || c = '-')

/-- `re.sub(r"\s+", "-", s)` (line 133): each maximal whitespace run becomes a
single hyphen (the hyphen is emitted at the last character of the run). -/
def collapseWsToHyphen : List Char → List Char
  | [] => []
  | [c] => if isPyWS c then ['-'] else [c]
  | c :: d :: rest =>
    if isPyWS c then
      (if isPyWS d then collapseWsToHyphen (d :: rest)
       else '-' :: collapseWsToHyphen (d :: rest))
    else c :: collapseWsToHyphen (d :: rest)

/-- Lines 132-133: the slug derived from the decoded subject. -/
def slugify (s : List Char) : List Char :=
  collapseWsToHyphen (stripWS (removePunc s))

/-- One month-name token of the RFC 5322 date grammar. -/
def monthNum (s : String) : Option Nat :=
  match s with
  | "Jan" => some 1 | "Feb" => some 2 | "Mar" => some 3 | "Apr" => some 4
  | "May" => some 5 | "Jun" => some 6 | "Jul" => some 7 | "Aug" => some 8
  | "Sep" => some 9 | "Oct" => some 10 | "Nov" => some 11 | "Dec" => some 12
  | _ => none

/-- Left-pad a decimal numeral with zeros to width `w` (`strftime` padding). -/
def padNum (w n : Nat) : String :=
  let r := toString n
  String.mk (List.replicate (w - r.length) '0') ++ r

/-- Models `email.utils.parsedate_to_datetime` on the common RFC 5322 header
shapes `[Day, ]DD Mon YYYY HH:MM:SS zone`: the day / month-name / year tokens
are located after an optional day-of-week token; any other shape (in
particular the empty string used as the missing-header default) fails, as the
Python function raises there. -/
def parseDateHdr (s : String) : Option (Nat × Nat × Nat) :=
  let toks := (s.data.map (fun c => if c = ',' then ' ' else c)).splitOn ' '
    |>.filter (fun t => t ≠ []) |>.map String.mk
  let toks := match toks with
    | t :: rest => if (monthNum t).isNone && t.data.any (fun c => !isDig c)
        then rest else t :: rest
    | [] => []
  match toks with
  | d :: m :: y :: _ =>
    if d.data ≠ [] && d.data.all isDig && y.data ≠ [] && y.data.all isDig then
      (monthNum m).map (fun mn => (y.toNat!, mn, d.toNat!))
    else none
  | _ => none

/-- `dt.strftime("%Y-%m-%d")` for the parsed date. -/
def formatYMD (d : Nat × Nat × Nat) : String :=
  padNum 4 d.1 ++ "-" ++ padNum 2 d.2.1 ++ "-" ++ padNum 2 d.2.2

/-- Models `str(make_header(decode_header(h)))` for headers without
MIME encoded-words (on such headers the decode round-trip is the identity;
no claim exercises an encoded header). -/
def decodeHdr (h : String) : String := h

/-! ## The markup document and the structural cleaner (`_clean_html`,
lines 137-181)

BeautifulSoup's parse tree is modeled as an immutable tree of elements and
text nodes; the in-place mutations of `_clean_html` become tree-to-tree
functions. -/

mutual
inductive Node where
  | text (s : String) : Node
  | elem (tag : String) (attrs : List (String × String)) (children : NodeList) :
      Node
deriving DecidableEq, Repr

inductive NodeList where
  | nil : NodeList
  | cons (n : Node) (l : NodeList) : NodeList
deriving DecidableEq, Repr
end

/-- First value of an attribute, as `tag.get(name)` / `tag["name"]`. -/
def attrGet (attrs : List (String × String)) (name : String) : Option String :=
  (attrs.find? (fun p => p.1 = name)).map (fun p => p.2)

mutual
/-- `soup.get_text()`: concatenate all text content in document order. -/
def getText : Node → List Char
  | .text s => s.data
  | .elem _ _ cs => getTextL cs

def getTextL : NodeList → List Char
  | .nil => []
  | .cons n l => getText n ++ getTextL l
end

mutual
/-- Lines 150-151: decompose every element whose `style` attribute contains
the substring `"display: none"` (a `[style*="display: none"]` selector). -/
def rmDisplayNone : Node → Node
  | .text s => .text s
  | .elem t a cs => .elem t a (rmDisplayNoneL cs)

def rmDisplayNoneL : NodeList → NodeList
  | .nil => .nil
  | .cons n l =>
    match n with
    | .text s => .cons (.text s) (rmDisplayNoneL l)
    | .elem t a cs =>
      match attrGet a "style" with
      | some v =>
        if containsSub "display: none".data v.data then rmDisplayNoneL l
        else .cons (.elem t a (rmDisplayNoneL cs)) (rmDisplayNoneL l)
      | none => .cons (.elem t a (rmDisplayNoneL cs)) (rmDisplayNoneL l)
end

/-- The `id` value pattern `^footnote-\d+$` of line 154. -/
def isFootnoteId (v : String) : Bool :=
  startsWith "footnote-".data v.data
    && (v.data.drop 9 ≠ []) && (v.data.drop 9).all isDig

/-- A `<div>` whose `id` matches `^footnote-\d+$`
(the `soup.find_all("div", id=...)` filter of line 154). -/
def isFootnoteDiv (n : Node) : Bool :=
  match n with
  | .elem "div" a _ =>
    match attrGet a "id" with
    | some v => isFootnoteId v
    | none => false
  | _ => false

mutual
/-- Paths (child-index lists) of all nodes satisfying `p`, in document
(depth-first, pre-order) order — the order of `soup.find_all`. -/
def findPaths (p : Node → Bool) : Node → List (List Nat)
  | .text s => if p (.text s) then [[]] else []
  | .elem t a cs =>
    (if p (.elem t a cs) then [[]] else [])
      ++ findPathsL p 0 cs

def findPathsL (p : Node → Bool) (i : Nat) : NodeList → List (List Nat)
  | .nil => []
  | .cons n l =>
    ((findPaths p n).map (fun q => i :: q)) ++ findPathsL p (i + 1) l
end

mutual
/-- Truncate a tree along a path: at every level of the path, the siblings
after the path's child are removed, and the child itself is truncated along
the rest of the path.  This is the effect of the `while current.parent`
loop of lines 162-167, which walks from the located node up to the root,
decomposing at each level every following sibling. -/
def truncAt : Node → List Nat → Node
  | n, [] => n
  | .text s, _ :: _ => .text s
  | .elem t a cs, i :: q => .elem t a (truncAtL cs i q)

def truncAtL : NodeList → Nat → List Nat → NodeList
  | .nil, _, _ => .nil
  | .cons n _, 0, q => .cons (truncAt n q) .nil
  | .cons n l, i + 1, q => .cons n (truncAtL l i q)
end

/-- Lines 153-167: if footnote divs exist, keep everything up to and
including the last one in document order, discarding all later siblings at
every ancestor level. -/
def truncFootnotes (root : Node) : Node :=
  match (findPaths isFootnoteDiv root).getLast? with
  | some path => truncAt root path
  | none => root

mutual
/-- Lines 170-172: wrap every `<blockquote>` between the literal text markers
`"\n\nBlock quote begins.\n"` and `"\n\nBlock quote ends.\n"`. -/
def insertBQ : Node → Node
  | .text s => .text s
  | .elem t a cs => .elem t a (insertBQL cs)

def insertBQL : NodeList → NodeList
  | .nil => .nil
  | .cons n l =>
    match n with
    | .elem "blockquote" a cs =>
      .cons (.text "\n\nBlock quote begins.\n")
        (.cons (.elem "blockquote" a (insertBQL cs))
          (.cons (.text "\n\nBlock quote ends.\n") (insertBQL l)))
    | .elem t a cs => .cons (.elem t a (insertBQL cs)) (insertBQL l)
    | .text s => .cons (.text s) (insertBQL l)
end

/-- The paragraph and heading tags of lines 175-178. -/
def isPHTag (t : String) : Bool :=
  t = "p" || t = "h1" || t = "h2" || t = "h3" || t = "h4" || t = "h5" || t = "h6"

mutual
/-- Lines 174-178: insert the text `"\n\n"` immediately before every
paragraph and heading element. -/
def insertPH : Node → Node
  | .text s => .text s
  | .elem t a cs => .elem t a (insertPHL cs)

def insertPHL : NodeList → NodeList
  | .nil => .nil
  | .cons n l =>
    match n with
    | .elem t a cs =>
      if isPHTag t then
        .cons (.text "\n\n") (.cons (.elem t a (insertPHL cs)) (insertPHL l))
      else .cons (.elem t a (insertPHL cs)) (insertPHL l)
    | .text s => .cons (.text s) (insertPHL l)
end

/-- `EmailProcessor._clean_html` applied to an already-parsed document tree:
hidden-content removal, footnote truncation, blockquote markers,
paragraph/heading spacing, flattening to text, whitespace normalization. -/
def cleanDoc (root : Node) : List Char :=
  normWS (getText (insertPH (insertBQ (truncFootnotes (rmDisplayNone root)))))

/-! ## Parsing and serializing markup

`parse()` (line 59) builds a tree with `BeautifulSoup(html_content,
"html.parser")`, serializes it with `str(soup)` and hands the string to
`_clean_html`, which re-parses it.  The parser below models `html.parser` on
well-formed markup fragments (properly nested tags, quoted attributes); none
of the data exercised contains character entities, so no entity decoding or
escaping is modeled. -/

def isTagNameCh (c : Char) : Bool := c.isAlphanum

/-- Parse the attribute list of a start tag, stopping at `>`. -/
def parseAttrsF : Nat → List Char → List (String × String) × List Char
  | 0, s => ([], s)
  | f + 1, s =>
    let s1 := s.dropWhile isPyWS
    match s1 with
    | [] => ([], [])
    | '>' :: _ => ([], s1)
    | _ =>
      let name := s1.takeWhile (fun c => !(c = '=') && !(c = '>') && !isPyWS c)
      if name = [] then ([], s1)
      else
        let s2 := (s1.drop name.length).dropWhile isPyWS
        match s2 with
        | '=' :: r =>
          let r1 := r.dropWhile isPyWS
          match r1 with
          | '"' :: r2 =>
            let v := r2.takeWhile (fun c => !(c = '"'))
            let (rest, r3) := parseAttrsF f ((r2.drop v.length).drop 1)
            ((String.mk name, String.mk v) :: rest, r3)
          | '\'' :: r2 =>
            let v := r2.takeWhile (fun c => !(c = '\''))
            let (rest, r3) := parseAttrsF f ((r2.drop v.length).drop 1)
            ((String.mk name, String.mk v) :: rest, r3)
          | _ =>
            let v := r1.takeWhile (fun c => !(c = '>') && !isPyWS c)
            let (rest, r3) := parseAttrsF f (r1.drop v.length)
            ((String.mk name, String.mk v) :: rest, r3)
        | _ =>
          let (rest, r3) := parseAttrsF f s2
          ((String.mk name, "") :: rest, r3)

/-- Consume a closing tag `</name>` if it is next in the input. -/
def consumeClose (name : List Char) (s : List Char) : List Char :=
  if startsWith ('<' :: '/' :: name ++ ['>']) s then
    s.drop (name.length + 3)
  else s

/-- Parse a sequence of sibling nodes, stopping at end of input or before a
closing tag. -/
def parseNodesF : Nat → List Char → NodeList × List Char
  | 0, s => (.nil, s)
  | f + 1, s =>
    match s with
    | [] => (.nil, [])
    | '<' :: '/' :: rest => (.nil, '<' :: '/' :: rest)
    | '<' :: rest =>
      let name := rest.takeWhile isTagNameCh
      if name = [] then
        let (ns, r) := parseNodesF f rest
        (.cons (.text "<") ns, r)
      else
        let (attrs, r1) := parseAttrsF f (rest.drop name.length)
        match r1 with
        | '>' :: r2 =>
          let (children, r3) := parseNodesF f r2
          let r4 := consumeClose name r3
          let (sibs, r5) := parseNodesF f r4
          (.cons (.elem (String.mk name) attrs children) sibs, r5)
        | _ =>
          let (ns, r) := parseNodesF f r1
          (.cons (.elem (String.mk name) attrs .nil) ns, r)
    | c :: rest =>
      let t := c :: rest.takeWhile (fun d => !(d = '<'))
      let (ns, r) := parseNodesF f (rest.drop (t.length - 1))
      (.cons (.text (String.mk t)) ns, r)

/-- `BeautifulSoup(html, "html.parser")`: the parsed document, rooted at the
`[document]` node. -/
def parseHtmlDoc (s : List Char) : Node :=
  .elem "[document]" [] (parseNodesF (s.length + 1) s).1

mutual
/-- `str(...)` of one node. -/
def serializeN : Node → List Char
  | .text s => s.data
  | .elem t a cs =>
    '<' :: t.data
      ++ (a.flatMap (fun p => ' ' :: p.1.data ++ '=' :: '"' :: p.2.data ++ ['"']))
      ++ '>' :: serializeL cs ++ '<' :: '/' :: t.data ++ ['>']

def serializeL : NodeList → List Char
  | .nil => []
  | .cons n l => serializeN n ++ serializeL l
end

/-- `str(soup)`: the document serializes as its children. -/
def serializeDoc (root : Node) : List Char :=
  match root with
  | .elem "[document]" _ cs => serializeL cs
  | n => serializeN n

/-- `EmailProcessor._clean_html` (lines 137-192) on a raw markup string. -/
def cleanHtml (html : List Char) : List Char :=
  cleanDoc (parseHtmlDoc html)

/-! ## The message model and `EmailProcessor.parse` -/

mutual
/-- One node of the parsed MIME message: a leaf part carries its content type
and its payload (the payload is modeled after transfer decoding and charset
decoding, which always succeed on the data exercised); a multipart container
carries its content type and its child parts. -/
inductive MPart where
  | leaf (ctype : String) (payload : String) : MPart
  | multi (ctype : String) (parts : MPartList) : MPart
deriving DecidableEq, Repr

inductive MPartList where
  | nil : MPartList
  | cons (p : MPart) (l : MPartList) : MPartList
deriving DecidableEq, Repr
end

/-- `part.get_content_type()`. -/
def partCType : MPart → String
  | .leaf t _ => t
  | .multi t _ => t

mutual
/-- `Message.walk()`: depth-first, document-order traversal, yielding each
part before its children. -/
def walk : MPart → List MPart
  | .leaf t p => [.leaf t p]
  | .multi t ps => .multi t ps :: walkL ps

def walkL : MPartList → List MPart
  | .nil => []
  | .cons p l => walk p ++ walkL l
end

/-- `EmailProcessor._decode_payload` (lines 105-113): the decoded payload of
a leaf part; on a multipart container `get_payload(decode=True)` returns
`None`, which is not `bytes`, so a `TypeError` is raised. -/
def decodePayload : MPart → Except PErr String
  | .leaf _ p => .ok p
  | .multi _ _ => .error .typeError

/-- The parsed message: its content tree and the two headers the engine
reads.  `none` models an absent header. -/
structure Msg where
  part : MPart
  dateHdr : Option String
  subjectHdr : Option String

/-- `EmailProcessor._extract_html_part` (lines 89-103). -/
def extractHtmlPart (m : Msg) : Except PErr String :=
  match m.part with
  | .multi t ps =>
    match (walk (.multi t ps)).find? (fun p => partCType p = "text/html") with
    | some p => decodePayload p
    | none => .error .noHtmlContentFound
  | .leaf t p =>
    if t = "text/html" then decodePayload (.leaf t p)
    else .error .noHtmlContentFound

/-- `EmailProcessor._extract_date_and_subject` (lines 115-135), returning
`(date_str, subject_slug, raw_subject)`. -/
def extractDateAndSubject (m : Msg) : String × String × String :=
  let rawDate := m.dateHdr.getD ""
  let dateStr := match parseDateHdr rawDate with
    | some d => formatYMD d
    | none => "9999-12-31"
  let rawSubject := String.mk (stripWS (decodeHdr (m.subjectHdr.getD "No Subject")).data)
  (dateStr, String.mk (slugify rawSubject.data), rawSubject)

/-- The Result Record returned by `EmailProcessor.parse`. -/
structure ParseResult where
  date : String
  subject : String
  subject_raw : String
  body : String
deriving DecidableEq, Repr

/-- `EmailProcessor.parse` (lines 45-69). -/
def emailParse (m : Msg) : Except PErr ParseResult := do
  let html ← extractHtmlPart m
  let (dateStr, subjectSlug, subjectRaw) := extractDateAndSubject m
  let soup := parseHtmlDoc html.data
  let cleaned := cleanHtml (serializeDoc soup)
  let body ← inlineFootnotes cleaned
  .ok ⟨dateStr, subjectSlug, subjectRaw, String.mk body⟩

/-! ## Spec-side comparison definitions and concrete fixtures -/

/-- Modelled from the spec's claim wording for the soft-wrap rewrite: delete
each `=` together with the following whitespace up to and including the
*first* line break only. -/
def step1ClaimF : Nat → List Char → List Char
  | 0, s => s
  | n + 1, s =>
    match s with
    | [] => []
    | c :: rest =>
      if c = '=' then
        let w := rest.takeWhile isPyWS
        if '\n' ∈ w then
          step1ClaimF n ((rest.drop (w.takeWhile (fun d => !(d = '\n'))).length).tail)
        else
          '=' :: step1ClaimF n rest
      else
        c :: step1ClaimF n rest

def step1Claim (s : List Char) : List Char := step1ClaimF s.length s

/-- The end-to-end example message of the spec (§8): a single `text/html`
part, subject `My apocalypse: the end is near!`, no date header. -/
def msgC1 : Msg :=
  { part := .leaf "text/html" "<p>Some content here.</p>"
    dateHdr := none
    subjectHdr := some "My apocalypse: the end is near!" }

/-- A multipart message with a plain-text part before an HTML part. -/
def msgMP : Msg :=
  { part := .multi "multipart/alternative"
      (.cons (.leaf "text/plain" "This is plain text.")
        (.cons (.leaf "text/html" "<p>html content</p>") .nil))
    dateHdr := some "Mon, 27 Jan 2025 19:32:33 +0000"
    subjectHdr := some "Test Email" }

/-- C1: for a message with a single `text/html` part whose body is
`<p>Some content here.</p>`, subject header `My apocalypse: the end is
near!` and no parseable date header, `EmailProcessor.parse` returns exactly
date `9999-12-31`, slug `My-apocalypse-the-end-is-near`, the raw subject,
and body `Some content here.`. -/
theorem claim_C1 :
    emailParse msgC1 = .ok
      { date := "9999-12-31"
        subject := "My-apocalypse-the-end-is-near"
        subject_raw := "My apocalypse: the end is near!"
        body := "Some content here." } := rfl

/-! ## C5 -/

mutual
/-- Truncating along any path removes only a suffix of the flattened text. -/
theorem getText_truncAt_pre :
    ∀ (n : Node) (q : List Nat), ∃ t, getText n = getText (truncAt n q) ++ t
  | n, [] => ⟨[], by simp [truncAt]⟩
  | .text s, _ :: _ => ⟨[], by simp [truncAt]⟩
  | .elem tg a cs, i :: q => by
    obtain ⟨t, ht⟩ := getTextL_truncAtL_pre cs i q
    exact ⟨t, by simp [truncAt, getText, ht]⟩

theorem getTextL_truncAtL_pre :
    ∀ (l : NodeList) (i : Nat) (q : List Nat),
      ∃ t, getTextL l = getTextL (truncAtL l i q) ++ t
  | .nil, _, _ => ⟨[], by simp [truncAtL]⟩
  | .cons n l, 0, q => by
    obtain ⟨t, ht⟩ := getText_truncAt_pre n q
    exact ⟨t ++ getTextL l, by simp [truncAtL, getTextL, ht]⟩
  | .cons n l, i + 1, q => by
    obtain ⟨t, ht⟩ := getTextL_truncAtL_pre l i q
    exact ⟨t, by simp [truncAtL, getTextL, ht]⟩
end

theorem mem_dropWhile {p : Char → Bool} {c : Char} :
    ∀ {l : List Char}, c ∈ l.dropWhile p → c ∈ l := by
  intro l
  induction l with
  | nil => intro h; exact h
  | cons a rest ih =>
    intro h
    by_cases ha : p a
    · rw [List.dropWhile_cons_of_pos ha] at h
      exact List.mem_cons_of_mem _ (ih h)
    · rwa [List.dropWhile_cons_of_neg ha] at h

theorem mem_collapseWs {c : Char} :
    ∀ {l : List Char}, c ∈ collapseWsToHyphen l →
      (c ∈ l ∧ isPyWS c = false) ∨ c = '-' := by
  intro l
  induction l using collapseWsToHyphen.induct with
  | case1 => intro h; simp [collapseWsToHyphen] at h
  | case2 a ha =>
    intro h
    simp only [collapseWsToHyphen, ha, if_true, List.mem_singleton] at h
    exact Or.inr h
  | case3 a ha =>
    intro h
    simp [collapseWsToHyphen, ha] at h
    subst h
    exact Or.inl ⟨List.mem_singleton_self _, by simpa using ha⟩
  | case4 a d rest ha hd ih =>
    intro h
    simp only [collapseWsToHyphen, ha, hd, if_true] at h
    rcases ih h with ⟨h1, h2⟩ | h1
    · exact Or.inl ⟨List.mem_cons_of_mem _ h1, h2⟩
    · exact Or.inr h1
  | case5 a d rest ha hd ih =>
    intro h
    simp only [collapseWsToHyphen, ha, hd, if_true, if_false, Bool.false_eq_true,
      List.mem_cons] at h
    rcases h with h | h
    · exact Or.inr h
    · rcases ih (by simpa using h) with ⟨h1, h2⟩ | h1
      · exact Or.inl ⟨List.mem_cons_of_mem _ h1, h2⟩
      · exact Or.inr h1
  | case6 a d rest ha ih =>
    intro h
    simp only [collapseWsToHyphen, ha, if_false, Bool.false_eq_true,
      List.mem_cons] at h
    rcases h with h | h
    · subst h
      exact Or.inl ⟨List.mem_cons_self _ _, by simpa using ha⟩
    · rcases ih (by simpa using h) with ⟨h1, h2⟩ | h1
      · exact Or.inl ⟨List.mem_cons_of_mem _ h1, h2⟩
      · exact Or.inr h1

theorem collapseWs_id : ∀ {l : List Char}, (∀ c ∈ l, isPyWS c = false) →
    collapseWsToHyphen l = l := by
  intro l
  induction l using collapseWsToHyphen.induct with
  | case1 => intro _; rfl
  | case2 a ha =>
    intro h
    rw [h a (List.mem_singleton_self _)] at ha
    cases ha
  | case3 a ha => intro _; simp [collapseWsToHyphen, ha]
  | case4 a d rest ha hd ih =>
    intro h
    rw [h a (List.mem_cons_self _ _)] at ha
    cases ha
  | case5 a d rest ha hd ih =>
    intro h
    rw [h a (List.mem_cons_self _ _)] at ha
    cases ha
  | case6 a d rest ha ih =>
    intro h
    simp only [collapseWsToHyphen, ha, if_false, Bool.false_eq_true]
    exact congrArg _ (ih fun c hc => h c (List.mem_cons_of_mem _ hc))

theorem mem_stripWS {c : Char} {l : List Char} (h : c ∈ stripWS l) : c ∈ l := by
  unfold stripWS at h
  rw [List.mem_reverse] at h
  have h1 := mem_dropWhile h
  rw [List.mem_reverse] at h1
  exact mem_dropWhile h1

theorem dropWhile_eq_self_of_none {p : Char → Bool} {l : List Char}
    (h : ∀ c ∈ l, p c = false) : l.dropWhile p = l := by
  cases l with
  | nil => rfl
  | cons a rest =>
    rw [List.dropWhile_cons_of_neg]
    simp [h a (List.mem_cons_self _ _)]

theorem stripWS_id {l : List Char} (h : ∀ c ∈ l, isPyWS c = false) :
    stripWS l = l := by
  unfold stripWS
  rw [dropWhile_eq_self_of_none h,
    dropWhile_eq_self_of_none (fun c hc => h c (List.mem_reverse.mp hc)),
    List.reverse_reverse]

theorem isWordCh_not_ws {c : Char} (h : isWordCh c = true) :
    isPyWS c = false := by
  by_contra hws
  rw [Bool.not_eq_false] at hws
  simp only [isPyWS, Bool.or_eq_true, decide_eq_true_eq] at hws
  rcases hws with ((((h' | h') | h') | h') | h') | h' <;> subst h' <;>
    simp [isWordCh] at h

theorem mem_slugify {c : Char} {s : List Char} (h : c ∈ slugify s) :
    isWordCh c = true ∨ c = '-' := by
  unfold slugify at h
  rcases mem_collapseWs h with ⟨h1, h2⟩ | h1
  · have h3 := mem_stripWS h1
    have h4 := List.mem_filter.mp h3
    rcases Bool.or_eq_true_iff.mp h4.2 with h5 | h5
    · rcases Bool.or_eq_true_iff.mp h5 with h6 | h6
      · exact Or.inl h6
      · rw [h6] at h2
        cases h2
    · exact Or.inr (by simpa using h5)
  · exact Or.inr h1

theorem slugify_no_ws {c : Char} {s : List Char} (h : c ∈ slugify s) :
    isPyWS c = false := by
  rcases mem_slugify h with h1 | h1
  · exact isWordCh_not_ws h1
  · subst h1
    rfl

/-- C7: every character of `subject_slug` is a word character or a hyphen;
a maximal whitespace run collapses to exactly one hyphen; and slugification
is idempotent. -/
theorem claim_C7 :
    (∀ (s : List Char) (c : Char), c ∈ slugify s → isWordCh c = true ∨ c = '-') ∧
      (∀ (v rest : List Char), v ≠ [] → (∀ c ∈ v, isPyWS c = true) →
        (∀ d, rest.head? = some d → isPyWS d = false) →
        collapseWsToHyphen (v ++ rest) = '-' :: collapseWsToHyphen rest) ∧
      (∀ s : List Char, slugify (slugify s) = slugify s) := by
  refine ⟨fun s c h => mem_slugify h, ?_, ?_⟩
  · intro v rest hne hv hrest
    induction v with
    | nil => cases hne rfl
    | cons a w ih =>
      have ha : isPyWS a = true := hv a (List.mem_cons_self _ _)
      match w with
      | [] =>
        cases rest with
        | nil => simp [collapseWsToHyphen, ha]
        | cons d r =>
          have hd := hrest d rfl
          simp [collapseWsToHyphen, ha, hd]
      | b :: w' =>
        have hb : isPyWS b = true := hv b (by simp)
        have := ih (by simp) (fun c hc => hv c (List.mem_cons_of_mem _ hc))
        simpa [collapseWsToHyphen, ha, hb] using this
  · intro s
    have hws : ∀ c ∈ slugify s, isPyWS c = false := fun c hc => slugify_no_ws hc
    have hfil : removePunc (slugify s) = slugify s := by
      unfold removePunc
      rw [List.filter_eq_self]
      intro c hc
      rcases mem_slugify hc with h1 | h1
      · simp [isWordCh] at h1 ⊢
        tauto
      · simp [h1]
    have hstep : slugify (slugify s) =
        collapseWsToHyphen (stripWS (removePunc (slugify s))) := rfl
    rw [hstep, hfil, stripWS_id hws, collapseWs_id hws]

/-- Witness for C7's run-collapse clause at a concrete run. -/
theorem claim_C7_witness :
    collapseWsToHyphen (" \t".data ++ "b".data) = '-' :: collapseWsToHyphen "b".data :=
  claim_C7.2.1 " \t".data "b".data (by decide) (by decide) (by decide)

/-! ## C4 -/

mutual
/-- Well-formedness guaranteed by the MIME parser: a container part (one
whose payload is a list of subparts) never carries the renderable content
type `text/html`; the parser only produces containers for `multipart/*` and
message-container types. -/
def wfPart : MPart → Bool
  | .leaf _ _ => true
  | .multi t ps => !(t = "text/html") && wfPartL ps

def wfPartL : MPartList → Bool
  | .nil => true
  | .cons p l => wfPart p && wfPartL l
end

mutual
theorem wf_walk_html :
    ∀ (r : MPart), wfPart r = true → ∀ p, p ∈ walk r →
      partCType p = "text/html" → ∃ pl, p = .leaf "text/html" pl
  | .leaf t pl, _, p, hp, hhtml => by
    simp only [walk, List.mem_singleton] at hp
    subst hp
    simp only [partCType] at hhtml
    exact ⟨pl, by rw [hhtml]⟩
  | .multi t ps, hwf, p, hp, hhtml => by
    simp only [walk, List.mem_cons] at hp
    rcases hp with hp | hp
    · subst hp
      simp only [partCType] at hhtml
      simp [wfPart, hhtml] at hwf
    · simp only [wfPart, Bool.and_eq_true] at hwf
      exact wf_walkL_html ps hwf.2 p hp hhtml

theorem wf_walkL_html :
    ∀ (l : MPartList), wfPartL l = true → ∀ p, p ∈ walkL l →
      partCType p = "text/html" → ∃ pl, p = .leaf "text/html" pl
  | .nil, _, p, hp, _ => by simp [walkL] at hp
  | .cons q l, hwf, p, hp, hhtml => by
    simp only [walkL, List.mem_append] at hp
    simp only [wfPartL, Bool.and_eq_true] at hwf
    rcases hp with hp | hp
    · exact wf_walk_html q hwf.1 p hp hhtml
    · exact wf_walkL_html l hwf.2 p hp hhtml
end

/-- C4: for every well-formed message, the Content Selector returns the
decoded text of the first `text/html` part in depth-first document order
(`Message.walk` order); in a multipart message with a plain-text part
followed by an HTML part it returns the HTML part's content; if no such part
exists it fails with `NoHtmlContentFoundError`, an error kind distinct from
every other error kind the engine raises. -/
theorem claim_C4 :
    (∀ m : Msg, wfPart m.part = true →
      (∀ p, (walk m.part).find? (fun q => partCType q = "text/html") = some p →
        ∃ pl, p = .leaf "text/html" pl ∧ extractHtmlPart m = .ok pl) ∧
      ((walk m.part).find? (fun q => partCType q = "text/html") = none →
        extractHtmlPart m = .error .noHtmlContentFound)) ∧
    extractHtmlPart msgMP = .ok "<p>html content</p>" ∧
    (∀ s, PErr.noHtmlContentFound ≠ PErr.valueError s) ∧
    PErr.noHtmlContentFound ≠ PErr.typeError := by
  refine ⟨fun m hwf => ⟨?_, ?_⟩, rfl, ?_, ?_⟩
  · intro p hfind
    have hmem : p ∈ walk m.part := List.mem_of_find?_eq_some hfind
    have hhtml : partCType p = "text/html" := by
      have := List.find?_some hfind
      simpa using this
    obtain ⟨pl, hpl⟩ := wf_walk_html m.part hwf p hmem hhtml
    subst hpl
    refine ⟨pl, rfl, ?_⟩
    cases hpart : m.part with
    | leaf t q =>
      rw [hpart] at hfind
      simp only [walk, List.find?_cons, List.find?_nil] at hfind
      by_cases ht : t = "text/html"
      · have : (MPart.leaf t q) = MPart.leaf "text/html" pl := by
          by_cases hd : (decide (partCType (MPart.leaf t q) = "text/html")) = true
          · rw [hd] at hfind
            exact (Option.some.injEq _ _ ▸ hfind).symm ▸ rfl
          · rw [Bool.not_eq_true] at hd
            rw [hd] at hfind
            cases hfind
        cases this
        simp [extractHtmlPart, hpart, decodePayload]
      · have hd : (decide (partCType (MPart.leaf t q) = "text/html")) = false := by
          simp [partCType, ht]
        rw [hd] at hfind
        cases hfind
    | multi t ps =>
      rw [hpart] at hfind
      simp [extractHtmlPart, hpart, hfind, decodePayload]
  · intro hnone
    cases hpart : m.part with
    | leaf t q =>
      rw [hpart] at hnone
      simp only [walk, List.find?_cons, List.find?_nil] at hnone
      by_cases ht : t = "text/html"
      · have hd : (decide (partCType (MPart.leaf t q) = "text/html")) = true := by
          simp [partCType, ht]
        rw [hd] at hnone
        cases hnone
      · simp [extractHtmlPart, hpart, ht]
    | multi t ps =>
      rw [hpart] at hnone
      simp [extractHtmlPart, hpart, hnone]
  · intro s h
    cases h
  · intro h
    cases h

/-- Witness for C4 at the concrete multipart message `msgMP`. -/
theorem claim_C4_witness :
    wfPart msgMP.part = true ∧
      (walk msgMP.part).find? (fun q => partCType q = "text/html") =
        some (.leaf "text/html" "<p>html content</p>") ∧
      ∃ pl, (MPart.leaf "text/html" "<p>html content</p>" : MPart) =
          .leaf "text/html" pl ∧ extractHtmlPart msgMP = .ok pl :=
  ⟨by decide, by decide,
    ((claim_C4.1 msgMP (by decide)).1 (.leaf "text/html" "<p>html content</p>")
      (by decide))⟩

/-! ## Substring and digit-run helpers -/

theorem startsWith_iff {pat : List Char} :
    ∀ {s : List Char}, startsWith pat s = true ↔ ∃ b, s = pat ++ b := by
  induction pat with
  | nil => intro s; simp [startsWith]
  | cons p ps ih =>
    intro s
    cases s with
    | nil =>
      simp only [startsWith, Bool.false_eq_true, false_iff]
      rintro ⟨b, hb⟩
      cases hb
    | cons c cs =>
      simp only [startsWith, Bool.and_eq_true, decide_eq_true_eq]
      constructor
      · rintro ⟨hpc, hsw⟩
        obtain ⟨b, hb⟩ := ih.mp hsw
        exact ⟨b, by rw [hpc, hb]; rfl⟩
      · rintro ⟨b, hb⟩
        cases hb
        exact ⟨rfl, ih.mpr ⟨b, rfl⟩⟩

theorem containsSub_iff {pat : List Char} :
    ∀ {s : List Char}, containsSub pat s = true ↔ ∃ a b, s = a ++ pat ++ b := by
  intro s
  induction s with
  | nil =>
    simp only [containsSub, startsWith_iff]
    constructor
    · rintro ⟨b, hb⟩
      exact ⟨[], b, by simpa using hb⟩
    · rintro ⟨a, b, hab⟩
      rw [List.append_assoc] at hab
      obtain ⟨-, h2⟩ := List.append_eq_nil.mp hab.symm
      exact ⟨b, by simpa using h2⟩
  | cons c cs ih =>
    simp only [containsSub, Bool.or_eq_true, startsWith_iff, ih]
    constructor
    · rintro (⟨b, hb⟩ | ⟨a, b, hab⟩)
      · exact ⟨[], b, by simpa using hb⟩
      · exact ⟨c :: a, b, by rw [hab]; rfl⟩
    · rintro ⟨a, b, hab⟩
      cases a with
      | nil => exact Or.inl ⟨b, by simpa using hab⟩
      | cons a0 a' =>
        rw [List.cons_append, List.cons_append] at hab
        exact Or.inr ⟨a', b, (List.cons.inj hab).2⟩

theorem containsSub_append_left {pat a : List Char} {b : List Char}
    (h : containsSub pat b = true) : containsSub pat (a ++ b) = true := by
  obtain ⟨x, y, hxy⟩ := containsSub_iff.mp h
  exact containsSub_iff.mpr ⟨a ++ x, y, by rw [hxy]; simp⟩

theorem containsSub_append_right {pat b : List Char} {a : List Char}
    (h : containsSub pat a = true) : containsSub pat (a ++ b) = true := by
  obtain ⟨x, y, hxy⟩ := containsSub_iff.mp h
  exact containsSub_iff.mpr ⟨x, y ++ b, by rw [hxy]; simp⟩

theorem containsSub_trans {pat mid s : List Char}
    (h1 : containsSub pat mid = true) (h2 : containsSub mid s = true) :
    containsSub pat s = true := by
  obtain ⟨x, y, hxy⟩ := containsSub_iff.mp h1
  obtain ⟨u, v, huv⟩ := containsSub_iff.mp h2
  exact containsSub_iff.mpr ⟨u ++ x, y ++ v, by rw [huv, hxy]; simp⟩

theorem takeWhile_eq_self_of_all {p : Char → Bool} :
    ∀ {l : List Char}, l.all p → l.takeWhile p = l := by
  intro l
  induction l with
  | nil => intro _; rfl
  | cons c cs ih =>
    intro h
    rw [List.all_cons, Bool.and_eq_true] at h
    rw [List.takeWhile_cons_of_pos h.1, ih h.2]

/-- Splitting a list at the end of its longest `p`-prefix. -/
theorem takeWhile_decomp (p : Char → Bool) (l : List Char) :
    l = l.takeWhile p ++ l.drop (l.takeWhile p).length := by
  induction l with
  | nil => rfl
  | cons c cs ih =>
    by_cases hc : p c
    · rw [List.takeWhile_cons_of_pos hc]
      simpa using ih
    · rw [List.takeWhile_cons_of_neg hc]
      rfl

theorem takeWhile_digits_append {n : List Char} (hn : n.all isDig) (b : List Char) :
    (n ++ ']' :: b).takeWhile isDig = n := by
  rw [List.takeWhile_append]
  rw [takeWhile_eq_self_of_all hn]
  simp [List.takeWhile_cons_of_neg, isDig]

theorem ptrAt_of_shape {n : List Char} (hne : n ≠ []) (hdig : n.all isDig)
    (b : List Char) : ptrAt (n ++ ']' :: b) = true := by
  unfold ptrAt
  rw [takeWhile_digits_append hdig, List.drop_left]
  simp [hne]

theorem mem_takeWhile_pred {p : Char → Bool} :
    ∀ {l : List Char} {c : Char}, c ∈ l.takeWhile p → p c = true := by
  intro l
  induction l with
  | nil => intro c h; simp at h
  | cons a cs ih =>
    intro c h
    by_cases ha : p a
    · rw [List.takeWhile_cons_of_pos ha, List.mem_cons] at h
      rcases h with h | h
      · rwa [h]
      · exact ih h
    · rw [List.takeWhile_cons_of_neg ha] at h
      simp at h

/-! ## Behavior of the pointer-substitution pass -/

theorem ptrSpanTail_len (rest : List Char) :
    (ptrSpanTail rest).length ≤ rest.length := by
  unfold ptrSpanTail
  have h1 : ∀ (l : List Char), l.tail.length ≤ l.length := by
    intro l; cases l <;> simp
  calc ((rest.drop (rest.takeWhile isDig).length).tail).length
      ≤ (rest.drop (rest.takeWhile isDig).length).length := h1 _
    _ ≤ rest.length := by simp [List.length_drop]

theorem exceptMapOk (e : Except PErr (List Char)) (f : List Char → List Char) :
    (∃ out, e.map f = .ok out) ↔ ∃ x, e = .ok x := by
  cases e <;> simp [Except.map]

theorem exceptMapErr (e : Except PErr (List Char)) (f : List Char → List Char)
    (err : PErr) : e.map f = .error err ↔ e = .error err := by
  cases e <;> simp [Except.map]

theorem subPtrF_fuel (tbl : List (List Char × List Char)) :
    ∀ (m : Nat) (s : List Char), s.length ≤ m → ∀ n, s.length ≤ n →
      subPtrF tbl m s = subPtrF tbl n s := by
  intro m s
  induction m, s using subPtrF.induct tbl with
  | case1 s =>
    intro hm n hn
    have hs : s = [] := List.length_eq_zero.mp (Nat.le_zero.mp hm)
    subst hs
    cases n <;> simp [subPtrF]
  | case2 m =>
    intro _ n _
    cases n <;> simp [subPtrF]
  | case3 m c rest hcond d hd ih =>
    intro hm n hn
    cases n with
    | zero => simp at hn
    | succ n' =>
      simp only [subPtrF, hcond, if_true, hd]
      rw [ih (Nat.le_trans (ptrSpanTail_len rest) (Nat.le_of_succ_le_succ hm)) n'
        (Nat.le_trans (ptrSpanTail_len rest) (Nat.le_of_succ_le_succ hn))]
  | case4 m c rest hcond hd =>
    intro hm n hn
    cases n with
    | zero => simp at hn
    | succ n' => simp only [subPtrF, hcond, if_true, hd]
  | case5 m c rest hcond ih =>
    intro hm n hn
    cases n with
    | zero => simp at hn
    | succ n' =>
      simp only [subPtrF, hcond, Bool.false_eq_true, if_false]
      rw [ih (Nat.le_of_succ_le_succ hm) n' (Nat.le_of_succ_le_succ hn)]

theorem apd_append_nobr {tbl : List (List Char × List Char)} :
    ∀ {a : List Char} {b : List Char}, '[' ∉ a →
      allPtrsDefined tbl (a ++ b) = allPtrsDefined tbl b := by
  intro a
  induction a with
  | nil => intro b _; rfl
  | cons x a' ih =>
    intro b hx
    have hxne : ¬(x = '[') := fun h => hx (h ▸ List.mem_cons_self _ _)
    simp only [List.cons_append, allPtrsDefined, hxne, decide_eq_true_eq,
      decide_eq_false hxne, Bool.false_and, Bool.not_false, Bool.true_or,
      Bool.true_and]
    exact ih (fun h => hx (List.mem_cons_of_mem _ h))

theorem hasPtr_append_nobr :
    ∀ {a : List Char} {b : List Char}, '[' ∉ a →
      hasPtr (a ++ b) = hasPtr b := by
  intro a
  induction a with
  | nil => intro b _; rfl
  | cons x a' ih =>
    intro b hx
    have hxne : ¬(x = '[') := fun h => hx (h ▸ List.mem_cons_self _ _)
    simp only [List.cons_append, hasPtr, decide_eq_false hxne, Bool.false_and,
      Bool.false_or]
    exact ih (fun h => hx (List.mem_cons_of_mem _ h))

theorem containsSub_br_append_nobr {p : List Char} :
    ∀ {a : List Char} {b : List Char}, '[' ∉ a →
      containsSub ('[' :: p) (a ++ b) = containsSub ('[' :: p) b := by
  intro a
  induction a with
  | nil => intro b _; rfl
  | cons x a' ih =>
    intro b hx
    have hxne : ¬('[' = x) := fun h => hx (h ▸ List.mem_cons_self _ _)
    simp only [List.cons_append, containsSub, startsWith,
      decide_eq_false hxne, Bool.false_and, Bool.false_or]
    exact ih (fun h => hx (List.mem_cons_of_mem _ h))

theorem br_not_mem_digits {l : List Char} : '[' ∉ l.takeWhile isDig := by
  intro h
  have := mem_takeWhile_pred h
  simp [isDig] at this

/-- Under `ptrAt rest`, decompose `rest` into digits, `]`, and the span
tail. -/
theorem ptrAt_decomp {rest : List Char} (h : ptrAt rest = true) :
    rest = rest.takeWhile isDig ++ ']' :: ptrSpanTail rest := by
  unfold ptrAt at h
  rw [Bool.and_eq_true, decide_eq_true_eq, decide_eq_true_eq] at h
  obtain ⟨-, hhead⟩ := h
  have hd : rest.drop (rest.takeWhile isDig).length =
      ']' :: ptrSpanTail rest := by
    unfold ptrSpanTail
    cases hdrop : rest.drop (rest.takeWhile isDig).length with
    | nil => rw [hdrop] at hhead; cases hhead
    | cons y t =>
      rw [hdrop] at hhead
      simp only [List.head?_cons, Option.some.injEq] at hhead
      rw [hhead]
      rfl
  conv_lhs => rw [takeWhile_decomp isDig rest]
  rw [hd]

theorem subPtrF_ok_iff (tbl : List (List Char × List Char)) :
    ∀ (n : Nat) (s : List Char), s.length ≤ n →
      ((∃ out, subPtrF tbl n s = .ok out) ↔ allPtrsDefined tbl s = true) := by
  intro n s
  induction n, s using subPtrF.induct tbl with
  | case1 s =>
    intro hm
    have hs : s = [] := List.length_eq_zero.mp (Nat.le_zero.mp hm)
    subst hs
    simp [subPtrF, allPtrsDefined]
  | case2 n =>
    intro _
    simp [subPtrF, allPtrsDefined]
  | case3 n c rest hcond d hd ih =>
    intro hm
    have hptr : ptrAt rest = true := by
      cases h : ptrAt rest
      · rw [h, Bool.and_false] at hcond; cases hcond
      · rfl
    have hsplit : allPtrsDefined tbl rest = allPtrsDefined tbl (ptrSpanTail rest) := by
      conv_lhs => rw [ptrAt_decomp hptr]
      rw [apd_append_nobr br_not_mem_digits]
      have h2 : (']' :: ptrSpanTail rest) = [']'] ++ ptrSpanTail rest := rfl
      rw [h2, apd_append_nobr (by simp)]
    simp only [subPtrF, hcond, if_true, hd]
    rw [exceptMapOk]
    rw [ih (Nat.le_trans (ptrSpanTail_len rest) (Nat.le_of_succ_le_succ hm))]
    simp only [allPtrsDefined, hcond, hd, Option.isSome_some, Bool.true_or,
      Bool.or_true, Bool.true_and, hsplit]
  | case4 n c rest hcond hd =>
    intro hm
    simp only [subPtrF, hcond, if_true, hd]
    simp only [allPtrsDefined, hcond, hd, Bool.not_true, Option.isSome_none,
      Bool.false_or, Bool.false_and]
    constructor
    · rintro ⟨out, hout⟩
      cases hout
    · intro h
      cases h
  | case5 n c rest hcond ih =>
    intro hm
    simp only [subPtrF, hcond, Bool.false_eq_true, if_false]
    rw [exceptMapOk]
    rw [ih (Nat.le_of_succ_le_succ hm)]
    simp [allPtrsDefined, hcond]

theorem all_takeWhile (p : Char → Bool) (l : List Char) :
    (l.takeWhile p).all p = true := by
  rw [List.all_eq_true]
  exact fun c hc => mem_takeWhile_pred hc

theorem containsSub_cons {pat : List Char} {c : Char} {cs : List Char}
    (h : containsSub pat cs = true) : containsSub pat (c :: cs) = true := by
  simp [containsSub, h]

/-- The digit strings of the pointer matches the substitution scanner
visits, in order. -/
def ptrList : List Char → List (List Char)
  | [] => []
  | c :: rest =>
    if c = '[' && ptrAt rest then rest.takeWhile isDig :: ptrList rest
    else ptrList rest

theorem ptrList_append_nobr :
    ∀ {a b : List Char}, '[' ∉ a → ptrList (a ++ b) = ptrList b := by
  intro a
  induction a with
  | nil => intro b _; rfl
  | cons x a' ih =>
    intro b hx
    have hxne : ¬(x = '[') := fun h => hx (h ▸ List.mem_cons_self _ _)
    simp only [List.cons_append, ptrList, decide_eq_false hxne, Bool.false_and,
      Bool.false_eq_true, if_false]
    exact ih (fun h => hx (List.mem_cons_of_mem _ h))

theorem subPtrF_error (tbl : List (List Char × List Char)) :
    ∀ (n : Nat) (s : List Char), s.length ≤ n → ∀ e,
      subPtrF tbl n s = .error e →
      ∃ m, e = fnErr m ∧ m ≠ [] ∧ m.all isDig = true ∧
        tblLookup tbl m = none ∧ containsSub ('[' :: m ++ [']']) s = true ∧
        m ∈ ptrList s := by
  intro n s
  induction n, s using subPtrF.induct tbl with
  | case1 s =>
    intro hm e he
    cases he
  | case2 n =>
    intro _ e he
    cases he
  | case3 n c rest hcond d hd ih =>
    intro hm e he
    have hptr : ptrAt rest = true := by
      cases h : ptrAt rest
      · rw [h, Bool.and_false] at hcond; cases hcond
      · rfl
    have hc : c = '[' := by
      cases h : decide (c = '[')
      · rw [h, Bool.false_and] at hcond; cases hcond
      · exact of_decide_eq_true h
    simp only [subPtrF, hcond, if_true, hd, exceptMapErr] at he
    obtain ⟨m, hme, hne, hdig, hlk, hsub, hmem⟩ :=
      ih (Nat.le_trans (ptrSpanTail_len rest) (Nat.le_of_succ_le_succ hm)) e he
    refine ⟨m, hme, hne, hdig, hlk, ?_, ?_⟩
    · subst hc
      have hshape : ('[' : Char) :: rest =
          ('[' :: rest.takeWhile isDig ++ [']']) ++ ptrSpanTail rest := by
        conv_lhs => rw [ptrAt_decomp hptr]
        simp
      rw [hshape]
      exact containsSub_append_left hsub
    · simp only [ptrList, hcond, if_true]
      apply List.mem_cons_of_mem
      have hshape2 : rest = (rest.takeWhile isDig ++ [']']) ++ ptrSpanTail rest := by
        conv_lhs => rw [ptrAt_decomp hptr]
        simp
      rw [hshape2, ptrList_append_nobr ?hnb]
      case hnb =>
        intro hmem2
        rcases List.mem_append.mp hmem2 with h | h
        · exact absurd (mem_takeWhile_pred h) (by decide)
        · simp at h
      exact hmem
  | case4 n c rest hcond hd =>
    intro hm e he
    have hptr : ptrAt rest = true := by
      cases h : ptrAt rest
      · rw [h, Bool.and_false] at hcond; cases hcond
      · rfl
    have hc : c = '[' := by
      cases h : decide (c = '[')
      · rw [h, Bool.false_and] at hcond; cases hcond
      · exact of_decide_eq_true h
    have hne : rest.takeWhile isDig ≠ [] := by
      unfold ptrAt at hptr
      rw [Bool.and_eq_true, decide_eq_true_eq, decide_eq_true_eq] at hptr
      exact hptr.1
    simp only [subPtrF, hcond, if_true, hd] at he
    cases he
    refine ⟨rest.takeWhile isDig, rfl, hne, all_takeWhile _ _, hd, ?_, ?_⟩
    · subst hc
      apply containsSub_iff.mpr
      refine ⟨[], ptrSpanTail rest, ?_⟩
      have hshape : ('[' : Char) :: rest =
          '[' :: (rest.takeWhile isDig ++ ']' :: ptrSpanTail rest) := by
        conv_lhs => rw [ptrAt_decomp hptr]
      rw [hshape]
      simp
    · simp only [ptrList, hcond, if_true]
      exact List.mem_cons_self _ _
  | case5 n c rest hcond ih =>
    intro hm e he
    simp only [subPtrF, hcond, Bool.false_eq_true, if_false, exceptMapErr] at he
    obtain ⟨m, hme, hne, hdig, hlk, hsub, hmem⟩ :=
      ih (Nat.le_of_succ_le_succ hm) e he
    refine ⟨m, hme, hne, hdig, hlk, containsSub_cons hsub, ?_⟩
    simp only [ptrList, hcond, Bool.false_eq_true, if_false]
    exact hmem

theorem apd_false_aux {tbl : List (List Char × List Char)} {m : List Char}
    (hne : m ≠ []) (hdig : m.all isDig = true) (hlk : tblLookup tbl m = none)
    (b : List Char) :
    ∀ (a : List Char),
      allPtrsDefined tbl (a ++ ('[' :: m ++ [']']) ++ b) = false := by
  intro a
  induction a with
  | nil =>
    have hptr : ptrAt (m ++ ']' :: b) = true := ptrAt_of_shape hne hdig b
    have htw : (m ++ ']' :: b).takeWhile isDig = m := takeWhile_digits_append hdig b
    simp only [List.nil_append, List.cons_append, List.append_assoc,
      List.singleton_append, allPtrsDefined]
    simp [hptr, htw, hlk]
  | cons x a' ih =>
    simp only [List.cons_append, List.append_assoc, List.singleton_append,
      List.nil_append, allPtrsDefined] at ih ⊢
    simp [ih]

theorem dangling_apd_false {tbl : List (List Char × List Char)} {m : List Char}
    (hne : m ≠ []) (hdig : m.all isDig = true) (hlk : tblLookup tbl m = none)
    {s : List Char} (hsub : containsSub ('[' :: m ++ [']']) s = true) :
    allPtrsDefined tbl s = false := by
  obtain ⟨a, b, hab⟩ := containsSub_iff.mp hsub
  subst hab
  exact apd_false_aux hne hdig hlk b a
theorem containsSub_self (l : List Char) : containsSub l l = true :=
  containsSub_iff.mpr ⟨[], [], by simp⟩

theorem exceptMapOkElim {e : Except PErr (List Char)}
    {f : List Char → List Char} {out : List Char}
    (h : e.map f = .ok out) : ∃ x, e = .ok x ∧ out = f x := by
  cases e with
  | ok x => exact ⟨x, rfl, by simpa [Except.map] using h.symm⟩
  | error err => simp [Except.map] at h

theorem subPtrF_render (tbl : List (List Char × List Char)) :
    ∀ (n : Nat) (s : List Char), s.length ≤ n → ∀ out,
      subPtrF tbl n s = .ok out →
      ∀ m d, m ≠ [] → m.all isDig = true → tblLookup tbl m = some d →
        containsSub ('[' :: m ++ [']']) s = true →
        containsSub (render d) out = true := by
  intro n s
  induction n, s using subPtrF.induct tbl with
  | case1 s =>
    intro hm out he m d hne hdig hlk hsub
    have hs : s = [] := List.length_eq_zero.mp (Nat.le_zero.mp hm)
    subst hs
    simp [containsSub, startsWith] at hsub
  | case2 n =>
    intro _ out he m d hne hdig hlk hsub
    simp [containsSub, startsWith] at hsub
  | case3 n c rest hcond d' hd ih =>
    intro hm out he m d hne hdig hlk hsub
    have hptr : ptrAt rest = true := by
      cases h : ptrAt rest
      · rw [h, Bool.and_false] at hcond; cases hcond
      · rfl
    have hc : c = '[' := by
      cases h : decide (c = '[')
      · rw [h, Bool.false_and] at hcond; cases hcond
      · exact of_decide_eq_true h
    simp only [subPtrF, hcond, if_true, hd] at he
    obtain ⟨out', hok, hout⟩ := exceptMapOkElim he
    subst hc
    obtain ⟨a, b, hab⟩ := containsSub_iff.mp hsub
    cases a with
    | nil =>
      simp only [List.nil_append, List.cons_append, List.append_assoc,
        List.singleton_append] at hab
      have hrest : rest = m ++ ']' :: b := (List.cons.inj hab).2
      have hds : rest.takeWhile isDig = m := by
        rw [hrest]
        exact takeWhile_digits_append hdig b
      rw [hds, hlk] at hd
      cases hd
      rw [hout]
      exact containsSub_append_right (containsSub_self _)
    | cons x a' =>
      have hrest : rest = a' ++ ('[' :: m ++ [']']) ++ b := by
        rw [List.cons_append] at hab
        exact (List.cons.inj hab).2
      have hsub2 : containsSub ('[' :: m ++ [']']) (ptrSpanTail rest) = true := by
        have hin : containsSub ('[' :: m ++ [']']) rest = true := by
          rw [hrest]
          exact containsSub_append_right (containsSub_append_left (containsSub_self _))
        rw [ptrAt_decomp hptr] at hin
        simp only [List.cons_append] at hin
        rw [containsSub_br_append_nobr br_not_mem_digits] at hin
        have h2 : (']' :: ptrSpanTail rest) = [']'] ++ ptrSpanTail rest := rfl
        rw [h2, containsSub_br_append_nobr (by simp)] at hin
        simpa [List.cons_append] using hin
      rw [hout]
      exact containsSub_append_left
        (ih (Nat.le_trans (ptrSpanTail_len rest) (Nat.le_of_succ_le_succ hm))
          out' hok m d hne hdig hlk hsub2)
  | case4 n c rest hcond hd =>
    intro hm out he m d hne hdig hlk hsub
    simp only [subPtrF, hcond, if_true, hd] at he
    cases he
  | case5 n c rest hcond ih =>
    intro hm out he m d hne hdig hlk hsub
    simp only [subPtrF, hcond, Bool.false_eq_true, if_false] at he
    obtain ⟨out', hok, hout⟩ := exceptMapOkElim he
    obtain ⟨a, b, hab⟩ := containsSub_iff.mp hsub
    cases a with
    | nil =>
      simp only [List.nil_append, List.cons_append, List.append_assoc,
        List.singleton_append] at hab
      have hc : c = '[' := (List.cons.inj hab).1
      have hrest : rest = m ++ ']' :: b := (List.cons.inj hab).2
      exfalso
      apply hcond
      rw [hc, hrest]
      simp [ptrAt_of_shape hne hdig b]
    | cons x a' =>
      have hrest : rest = a' ++ ('[' :: m ++ [']']) ++ b := by
        rw [List.cons_append] at hab
        exact (List.cons.inj hab).2
      have hsub2 : containsSub ('[' :: m ++ [']']) rest = true := by
        rw [hrest]
        exact containsSub_append_right (containsSub_append_left (containsSub_self _))
      rw [hout]
      exact containsSub_cons
        (ih (Nat.le_of_succ_le_succ hm) out' hok m d hne hdig hlk hsub2)

/-! ## No pointer survives in the substituted output -/

theorem hasPtr_of_append_right :
    ∀ {a b : List Char}, hasPtr (a ++ b) = false → hasPtr b = false := by
  intro a
  induction a with
  | nil => intro b h; exact h
  | cons x a' ih =>
    intro b h
    simp only [List.cons_append, hasPtr, Bool.or_eq_false_iff] at h
    exact ih h.2

theorem ptrAt_append_mono {a : List Char} (h : ptrAt a = true) (b : List Char) :
    ptrAt (a ++ b) = true := by
  have hne : a.takeWhile isDig ≠ [] := by
    unfold ptrAt at h
    rw [Bool.and_eq_true, decide_eq_true_eq, decide_eq_true_eq] at h
    exact h.1
  have hdecomp := ptrAt_decomp h
  conv_lhs => rw [hdecomp]
  rw [List.append_assoc, List.cons_append]
  exact ptrAt_of_shape hne (all_takeWhile _ _) _

theorem hasPtr_of_append_left :
    ∀ {a b : List Char}, hasPtr (a ++ b) = false → hasPtr a = false := by
  intro a
  induction a with
  | nil => intro b _; rfl
  | cons x a' ih =>
    intro b h
    simp only [List.cons_append, hasPtr, Bool.or_eq_false_iff] at h
    simp only [hasPtr, Bool.or_eq_false_iff]
    refine ⟨?_, ih h.2⟩
    cases hp : ptrAt a'
    · simp [hp]
    · have heq : (a'.append b) = a' ++ b := rfl
      rw [heq, ptrAt_append_mono hp b] at h
      simpa using h.1

theorem takeWhile_len_lt_of_not_all {p : Char → Bool} :
    ∀ {a : List Char}, a.all p = false → (a.takeWhile p).length < a.length := by
  intro a
  induction a with
  | nil => intro h; simp at h
  | cons c a' ih =>
    intro h
    rw [List.all_cons, Bool.and_eq_false_iff] at h
    rcases h with h | h
    · rw [List.takeWhile_cons_of_neg (by simp [h])]
      simp
    · by_cases hc : p c
      · rw [List.takeWhile_cons_of_pos hc]
        simpa using ih h
      · rw [List.takeWhile_cons_of_neg hc]
        simp

/-- A pointer match cannot arise across a boundary whose right side starts
with a character that is neither a digit nor `]`. -/
theorem ptrAt_append_safe {a b : List Char} (ha : ptrAt a = false)
    (hb : ∀ c, b.head? = some c → isDig c = false ∧ c ≠ ']') :
    ptrAt (a ++ b) = false := by
  cases hbe : b with
  | nil => simpa using ha
  | cons c b' =>
    obtain ⟨hcd, hcne⟩ := hb c (by rw [hbe]; rfl)
    by_cases hall : a.all isDig
    · have htw : a.takeWhile isDig = a := takeWhile_eq_self_of_all hall
      have htw2 : (c :: b').takeWhile isDig = [] :=
        List.takeWhile_cons_of_neg (by simp [hcd])
      unfold ptrAt
      rw [List.takeWhile_append, htw, if_pos rfl, htw2, List.append_nil,
        List.drop_left]
      simp [hcne]
    · have hallf : a.all isDig = false := by
        revert hall; cases a.all isDig <;> simp
      have hlt := takeWhile_len_lt_of_not_all hallf
      unfold ptrAt at ha ⊢
      rw [List.takeWhile_append, if_neg (Nat.ne_of_lt hlt)]
      rw [List.drop_append_of_le_length (Nat.le_of_lt hlt)]
      have hne : a.drop (a.takeWhile isDig).length ≠ [] := by
        intro hcontra
        have := congrArg List.length hcontra
        simp only [List.length_drop, List.length_nil] at this
        omega
      rw [List.head?_append_of_ne_nil _ hne]
      exact ha

theorem hasPtr_append_safe :
    ∀ {a b : List Char}, hasPtr a = false →
      (∀ c, b.head? = some c → isDig c = false ∧ c ≠ ']') →
      hasPtr (a ++ b) = hasPtr b := by
  intro a
  induction a with
  | nil => intro b _ _; rfl
  | cons x a' ih =>
    intro b ha hb
    simp only [hasPtr, Bool.or_eq_false_iff] at ha
    simp only [List.cons_append, hasPtr, List.append_eq]
    rw [ih ha.2 hb]
    have hfirst : (decide (x = '[') && ptrAt (a' ++ b)) = false := by
      by_cases hx : x = '['
      · have hpa : ptrAt a' = false := by
          rcases Bool.and_eq_false_iff.mp ha.1 with h | h
          · rw [decide_eq_false_iff_not] at h
            exact absurd hx h
          · exact h
        rw [ptrAt_append_safe hpa hb]
        simp
      · simp [hx]
    rw [hfirst]
    simp

/-- Every list is its stripped core surrounded by the trimmed-off ends. -/
theorem stripWS_decomp (d : List Char) :
    ∃ u v, d = u ++ stripWS d ++ v := by
  refine ⟨d.takeWhile isPyWS,
    ((d.dropWhile isPyWS).reverse.takeWhile isPyWS).reverse, ?_⟩
  have h1 : d = d.takeWhile isPyWS ++ d.dropWhile isPyWS :=
    (List.takeWhile_append_dropWhile _ _).symm
  have h2 : d.dropWhile isPyWS =
      stripWS d ++ ((d.dropWhile isPyWS).reverse.takeWhile isPyWS).reverse := by
    unfold stripWS
    conv_lhs => rw [← List.reverse_reverse (d.dropWhile isPyWS)]
    conv_lhs =>
      rw [show (d.dropWhile isPyWS).reverse =
        (d.dropWhile isPyWS).reverse.takeWhile isPyWS ++
          (d.dropWhile isPyWS).reverse.dropWhile isPyWS from
        (List.takeWhile_append_dropWhile _ _).symm]
    rw [List.reverse_append]
  conv_lhs => rw [h1, h2]
  rw [List.append_assoc]

theorem hasPtr_stripWS {d : List Char} (h : hasPtr d = false) :
    hasPtr (stripWS d) = false := by
  obtain ⟨u, v, huv⟩ := stripWS_decomp d
  rw [huv, List.append_assoc] at h
  have h2 := hasPtr_of_append_right h
  exact hasPtr_of_append_left h2

theorem ptrAt_cons_nondigit {c : Char} {l : List Char} (h : isDig c = false) :
    ptrAt (c :: l) = false := by
  unfold ptrAt
  rw [List.takeWhile_cons_of_neg (by simp [h])]
  simp

theorem ptrAt_head_nondigit {l : List Char} {x : Char}
    (hh : l.head? = some x) (hx : isDig x = false) : ptrAt l = false := by
  cases l with
  | nil => cases hh
  | cons c l' =>
    simp only [List.head?_cons, Option.some.injEq] at hh
    subst hh
    exact ptrAt_cons_nondigit hx

theorem ptrAt_cons_digit {c : Char} {l : List Char} (h : isDig c = true) :
    ptrAt (c :: l) =
      decide ((l.drop (l.takeWhile isDig).length).head? = some ']') := by
  unfold ptrAt
  rw [List.takeWhile_cons_of_pos h]
  simp [List.drop_succ_cons]

theorem render_head (d : List Char) (y : List Char) :
    (render d ++ y).head? = some 'F' := rfl

theorem render_head0 (d : List Char) : (render d).head? = some 'F' := rfl

theorem render_ne_nil (d : List Char) : render d ≠ [] := by
  intro h
  have h0 : (render d).head? = some 'F' := render_head0 d
  rw [h] at h0
  cases h0

theorem subPtrF_head (tbl : List (List Char × List Char)) (n : Nat)
    (s out : List Char) (he : subPtrF tbl n s = .ok out) :
    (s = [] → out = []) ∧
      (∀ hch, s.head? = some hch →
        (hch ≠ '[' → out.head? = some hch) ∧
        (hch = '[' → out.head? = some '[' ∨ out.head? = some 'F')) := by
  cases n with
  | zero =>
    cases he
    refine ⟨fun h => h, fun hch hh => ⟨fun _ => hh, fun hbr => Or.inl (hbr ▸ hh)⟩⟩
  | succ n' =>
    cases s with
    | nil =>
      cases he
      exact ⟨fun _ => rfl, fun hch hh => by cases hh⟩
    | cons c rest =>
      refine ⟨fun h => List.noConfusion h, fun hch hh => ?_⟩
      simp only [List.head?_cons, Option.some.injEq] at hh
      subst hh
      by_cases hcond : (decide (c = '[') && ptrAt rest) = true
      · have hc : c = '[' := by
          cases h : decide (c = '[')
          · rw [h, Bool.false_and] at hcond; cases hcond
          · exact of_decide_eq_true h
        refine ⟨fun hne => absurd hc hne, fun _ => ?_⟩
        simp only [subPtrF, hcond, if_true] at he
        cases hlk : tblLookup tbl (rest.takeWhile isDig) with
        | some d =>
          rw [hlk] at he
          obtain ⟨out', -, hout⟩ := exceptMapOkElim he
          rw [hout]
          exact Or.inr (render_head d out')
        | none =>
          rw [hlk] at he
          cases he
      · simp only [subPtrF, hcond, Bool.false_eq_true, if_false] at he
        obtain ⟨out', -, hout⟩ := exceptMapOkElim he
        rw [hout]
        exact ⟨fun _ => rfl, fun hbr => Or.inl (by rw [List.head?_cons, hbr])⟩

theorem subPtrF_ptrAt_false (tbl : List (List Char × List Char)) :
    ∀ (n : Nat) (s : List Char), s.length ≤ n → ∀ out,
      subPtrF tbl n s = .ok out → ptrAt s = false → ptrAt out = false := by
  intro n s
  induction n, s using subPtrF.induct tbl with
  | case1 s =>
    intro hm out he hps
    cases he
    exact hps
  | case2 n =>
    intro _ out he _
    cases he
    simp [ptrAt]
  | case3 n c rest hcond d hd ih =>
    intro hm out he hps
    simp only [subPtrF, hcond, if_true, hd] at he
    obtain ⟨out', -, hout⟩ := exceptMapOkElim he
    rw [hout]
    exact ptrAt_head_nondigit (render_head d out') (by decide)
  | case4 n c rest hcond hd =>
    intro hm out he _
    simp only [subPtrF, hcond, if_true, hd] at he
    cases he
  | case5 n c rest hcond ih =>
    intro hm out he hps
    simp only [subPtrF, hcond, Bool.false_eq_true, if_false] at he
    obtain ⟨out', hok, hout⟩ := exceptMapOkElim he
    subst hout
    have hhead := subPtrF_head tbl n rest out' hok
    by_cases hc : isDig c = true
    · rw [ptrAt_cons_digit hc] at hps ⊢
      by_cases htw : rest.takeWhile isDig = []
      · rw [htw] at hps
        simp only [List.length_nil, List.drop_zero] at hps
        cases hrest : rest with
        | nil =>
          have : out' = [] := hhead.1 hrest
          rw [this]
          simp
        | cons h0 r' =>
          have hh0 : rest.head? = some h0 := by rw [hrest]; rfl
          have hh0d : isDig h0 = false := by
            by_contra hcon
            rw [Bool.not_eq_false] at hcon
            rw [hrest, List.takeWhile_cons_of_pos hcon] at htw
            cases htw
          have hh0ne : h0 ≠ ']' := by
            intro hcon
            rw [hrest, hcon] at hps
            simp at hps
          have hohead : ∃ y, out'.head? = some y ∧ isDig y = false ∧ y ≠ ']' := by
            by_cases hbr : h0 = '['
            · rcases (hhead.2 h0 hh0).2 hbr with h | h
              · exact ⟨'[', h, by decide, by decide⟩
              · exact ⟨'F', h, by decide, by decide⟩
            · exact ⟨h0, (hhead.2 h0 hh0).1 hbr, hh0d, hh0ne⟩
          obtain ⟨y, hy, hyd, hyne⟩ := hohead
          cases hout' : out' with
          | nil => simp [hout']
          | cons y0 o' =>
            rw [hout'] at hy
            simp only [List.head?_cons, Option.some.injEq] at hy
            subst hy
            rw [List.takeWhile_cons_of_neg (by simp [hyd])]
            simp [hyne]
      · have hpr : ptrAt rest = false := by
          unfold ptrAt
          rw [Bool.and_eq_false_iff]
          right
          simpa using hps
        have hp2 := ih (Nat.le_of_succ_le_succ hm) out' hok hpr
        cases hrest : rest with
        | nil => exact absurd (by rw [hrest]; rfl) htw
        | cons h0 r' =>
          have hh0d : isDig h0 = true := by
            by_contra hcon
            rw [Bool.not_eq_true] at hcon
            rw [hrest, List.takeWhile_cons_of_neg (by simp [hcon])] at htw
            exact htw rfl
          have hh0 : rest.head? = some h0 := by rw [hrest]; rfl
          have hyhead : out'.head? = some h0 :=
            (hhead.2 h0 hh0).1 (by intro hcon; rw [hcon] at hh0d; cases hh0d)
          cases hout' : out' with
          | nil => rw [hout'] at hyhead; cases hyhead
          | cons y0 o' =>
            rw [hout'] at hyhead
            simp only [List.head?_cons, Option.some.injEq] at hyhead
            subst hyhead
            rw [hout'] at hp2
            rw [ptrAt_cons_digit hh0d] at hp2
            rw [List.takeWhile_cons_of_pos hh0d]
            simpa [List.drop_succ_cons] using hp2
    · have hcf : isDig c = false := by
        rw [← Bool.not_eq_true]
        exact hc
      exact ptrAt_cons_nondigit hcf

theorem subPtrF_noPtr (tbl : List (List Char × List Char))
    (hdefs : ∀ k dd, tblLookup tbl k = some dd → hasPtr dd = false) :
    ∀ (n : Nat) (s : List Char), s.length ≤ n → ∀ out,
      subPtrF tbl n s = .ok out → hasPtr out = false := by
  intro n s
  induction n, s using subPtrF.induct tbl with
  | case1 s =>
    intro hm out he
    cases he
    have hs : s = [] := List.length_eq_zero.mp (Nat.le_zero.mp hm)
    rw [hs]
    rfl
  | case2 n =>
    intro _ out he
    cases he
    rfl
  | case3 n c rest hcond d hd ih =>
    intro hm out he
    simp only [subPtrF, hcond, if_true, hd] at he
    obtain ⟨out', hok, hout⟩ := exceptMapOkElim he
    have hout' : hasPtr out' = false :=
      ih (Nat.le_trans (ptrSpanTail_len rest) (Nat.le_of_succ_le_succ hm))
        out' hok
    have hstrip : hasPtr (stripWS d) = false := hasPtr_stripWS (hdefs _ _ hd)
    rw [hout]
    have hsplit : render d ++ out' =
        "Footnote begins. ".data ++
          (stripWS d ++ (" Footnote ends.".data ++ out')) := by
      unfold render
      simp [List.append_assoc]
    rw [hsplit, hasPtr_append_nobr (by decide)]
    rw [hasPtr_append_safe hstrip ?hhead]
    case hhead =>
      intro ch hch
      have : ch = ' ' := by
        simpa using hch.symm
      rw [this]
      exact ⟨by decide, by decide⟩
    rw [hasPtr_append_nobr (by decide)]
    exact hout'
  | case4 n c rest hcond hd =>
    intro hm out he
    simp only [subPtrF, hcond, if_true, hd] at he
    cases he
  | case5 n c rest hcond ih =>
    intro hm out he
    simp only [subPtrF, hcond, Bool.false_eq_true, if_false] at he
    obtain ⟨out', hok, hout⟩ := exceptMapOkElim he
    have hout' : hasPtr out' = false := ih (Nat.le_of_succ_le_succ hm) out' hok
    rw [hout]
    simp only [hasPtr, hout', Bool.or_false]
    by_cases hc : c = '['
    · have hpr : ptrAt rest = false := by
        cases h : ptrAt rest
        · rfl
        · exfalso
          apply hcond
          rw [h, hc]
          simp
      rw [subPtrF_ptrAt_false tbl n rest (Nat.le_of_succ_le_succ hm) out' hok hpr]
      simp
    · simp [hc]

theorem containsSub_dropWhile {p0 : Char} {pat' s : List Char}
    (hh : isPyWS p0 = false) (h : containsSub (p0 :: pat') s = true) :
    containsSub (p0 :: pat') (s.dropWhile isPyWS) = true := by
  obtain ⟨a, b, hab⟩ := containsSub_iff.mp h
  subst hab
  rw [List.append_assoc, List.dropWhile_append]
  by_cases hae : (a.dropWhile isPyWS).isEmpty
  · rw [if_pos hae, List.cons_append,
      List.dropWhile_cons_of_neg (by simp [hh])]
    exact containsSub_append_right (containsSub_self _)
  · rw [if_neg hae]
    exact containsSub_append_left
      (containsSub_append_right (containsSub_self _))

theorem containsSub_reverse {pat s : List Char}
    (h : containsSub pat s = true) :
    containsSub pat.reverse s.reverse = true := by
  obtain ⟨a, b, hab⟩ := containsSub_iff.mp h
  subst hab
  apply containsSub_iff.mpr
  exact ⟨b.reverse, a.reverse, by simp⟩

theorem containsSub_stripWS {pat s : List Char} (hne : pat ≠ [])
    (hh : ∀ c, pat.head? = some c → isPyWS c = false)
    (hl : ∀ c, pat.getLast? = some c → isPyWS c = false)
    (hsub : containsSub pat s = true) :
    containsSub pat (stripWS s) = true := by
  cases hpat : pat with
  | nil => exact absurd hpat hne
  | cons p0 pat' =>
    subst hpat
    have h1 : containsSub (p0 :: pat') (s.dropWhile isPyWS) = true :=
      containsSub_dropWhile (hh p0 rfl) hsub
    have h2 : containsSub (p0 :: pat').reverse
        (s.dropWhile isPyWS).reverse = true := containsSub_reverse h1
    cases hrev : (p0 :: pat').reverse with
    | nil =>
      exfalso
      have := congrArg List.length hrev
      simp at this
    | cons q0 q' =>
      have hq0 : isPyWS q0 = false := by
        apply hl
        rw [← List.head?_reverse, hrev]
        rfl
      rw [hrev] at h2
      have h3 : containsSub (q0 :: q')
          ((s.dropWhile isPyWS).reverse.dropWhile isPyWS) = true :=
        containsSub_dropWhile hq0 h2
      have h4 := containsSub_reverse h3
      rw [← hrev, List.reverse_reverse] at h4
      exact h4

/-! ## Top-level behavior of the footnote inliner -/

theorem inline_ok_iff (t : List Char) :
    (∃ out, inlineFootnotes t = .ok out) ↔
      allPtrsDefined (collectDefs t) (removeDefs t) = true := by
  unfold inlineFootnotes subPtr
  rw [exceptMapOk]
  exact subPtrF_ok_iff _ _ _ (Nat.le_refl _)

theorem inline_error_shape {t : List Char} {e : PErr}
    (he : inlineFootnotes t = .error e) :
    ∃ m, e = fnErr m ∧ m ≠ [] ∧ m.all isDig = true ∧
      tblLookup (collectDefs t) m = none ∧
      containsSub ('[' :: m ++ [']']) (removeDefs t) = true ∧
      m ∈ ptrList (removeDefs t) := by
  unfold inlineFootnotes subPtr at he
  rw [exceptMapErr] at he
  exact subPtrF_error _ _ _ (Nat.le_refl _) e he

theorem inline_error_of_dangling {t n : List Char} (hne : n ≠ [])
    (hdig : n.all isDig = true)
    (hocc : containsSub ('[' :: n ++ [']']) (removeDefs t) = true)
    (hlk : tblLookup (collectDefs t) n = none) :
    ∃ m, inlineFootnotes t = .error (fnErr m) ∧ m ≠ [] ∧
      m.all isDig = true ∧ tblLookup (collectDefs t) m = none ∧
      containsSub ('[' :: m ++ [']']) (removeDefs t) = true ∧
      m ∈ ptrList (removeDefs t) := by
  have hapd := dangling_apd_false hne hdig hlk hocc
  cases hres : inlineFootnotes t with
  | ok out =>
    exfalso
    have := (inline_ok_iff t).mp ⟨out, hres⟩
    rw [hapd] at this
    cases this
  | error e =>
    obtain ⟨m, hme, h1, h2, h3, h4, h5⟩ := inline_error_shape hres
    subst hme
    exact ⟨m, rfl, h1, h2, h3, h4, h5⟩

theorem render_getLast (d : List Char) :
    (render d).getLast? = some '.' := by
  unfold render
  rw [List.getLast?_append]
  rfl

theorem ptrTok_getLast (m : List Char) :
    ('[' :: m ++ [']']).getLast? = some ']' := by
  rw [List.cons_append, show ('[' :: (m ++ [']'])) = ['['] ++ (m ++ [']']) from rfl,
    List.getLast?_append, List.getLast?_append]
  rfl

/-! ## C2 -/

/-- C2 counterexample: the text `[2] see [3]` contains an occurrence of
`[3]` and the Footnote Table records no entry for 3, yet the inliner
succeeds — the occurrence sits inside the matched span of footnote 2's
definition, which the collection pass deletes wholesale before the
substitution pass scans the text. -/
theorem claim_C2_counterexample :
    ptrOccurs "[2] see [3]".data "3".data = true ∧
    tblLookup (collectDefs "[2] see [3]".data) "3".data = none ∧
    inlineFootnotes "[2] see [3]".data = .ok [] :=
  ⟨by decide, by decide, rfl⟩

/-- C2 (amended): for every text in which, *after the definition lines are
deleted*, an occurrence of `[n]` remains with no Footnote Table entry for
`n`, the inliner aborts with the `ValueError` naming a missing identifier
(the first dangling pointer the scan reaches), producing no output text; in
particular a text whose body contains `[3]` with no `[3]` definition line
fails naming 3. -/
theorem claim_C2 :
    (∀ (t n : List Char), ptrOccurs (removeDefs t) n = true →
      tblLookup (collectDefs t) n = none →
      ∃ m, inlineFootnotes t = .error (fnErr m) ∧
        ptrOccurs (removeDefs t) m = true ∧
        tblLookup (collectDefs t) m = none) ∧
    inlineFootnotes "Main text with pointer [3].\n[1] defined".data =
      .error (fnErr "3".data) := by
  constructor
  · intro t n hocc hlk
    simp only [ptrOccurs, Bool.and_eq_true, decide_eq_true_eq] at hocc
    obtain ⟨⟨hne, hdig⟩, hsub⟩ := hocc
    obtain ⟨m, hres, h1, h2, h3, h4, -⟩ :=
      inline_error_of_dangling hne hdig hsub hlk
    refine ⟨m, hres, ?_, h3⟩
    simp only [ptrOccurs, Bool.and_eq_true, decide_eq_true_eq]
    exact ⟨⟨h1, h2⟩, h4⟩
  · rfl

/-- Witness for the amended C2 at a concrete dangling pointer. -/
theorem claim_C2_witness :
    ∃ m, inlineFootnotes "x [3] y".data = .error (fnErr m) ∧
      ptrOccurs (removeDefs "x [3] y".data) m = true ∧
      tblLookup (collectDefs "x [3] y".data) m = none :=
  claim_C2.1 "x [3] y".data "3".data (by decide) (by decide)

/-! ## C3 -/

/-- C3 counterexample: in `x [1]\n[1] see [2]\n[2] y` every pointer (in the
raw text and after definition removal) has a matching definition line, so
inlining succeeds, but a bracketed pointer `[2]` remains in the output —
it was inside the inlined definition text of footnote 1. -/
theorem claim_C3_counterexample :
    allPtrsDefined (collectDefs "x [1]\n[1] see [2]\n[2] y".data)
        (removeDefs "x [1]\n[1] see [2]\n[2] y".data) = true ∧
    (ptrList "x [1]\n[1] see [2]\n[2] y".data).all
      (fun m =>
        (tblLookup (collectDefs "x [1]\n[1] see [2]\n[2] y".data) m).isSome)
      = true ∧
    inlineFootnotes "x [1]\n[1] see [2]\n[2] y".data =
      .ok "x Footnote begins. see [2] Footnote ends.".data ∧
    hasPtr "x Footnote begins. see [2] Footnote ends.".data = true :=
  ⟨by decide, by decide, rfl, by decide⟩

/-- C3 (amended): if every pointer left after definition-line removal has a
Footnote Table entry, inlining succeeds and each such pointer is replaced by
the inline rendering of its definition; provided additionally that no
definition text itself contains a bracketed digit sequence, no bracketed
pointer remains anywhere in the output. -/
theorem claim_C3 :
    ∀ t : List Char,
      allPtrsDefined (collectDefs t) (removeDefs t) = true →
      (∀ k d, tblLookup (collectDefs t) k = some d → hasPtr d = false) →
      ∃ out, inlineFootnotes t = .ok out ∧ hasPtr out = false ∧
        ∀ m d, m ≠ [] → m.all isDig = true →
          containsSub ('[' :: m ++ [']']) (removeDefs t) = true →
          tblLookup (collectDefs t) m = some d →
          containsSub (render d) out = true := by
  intro t hapd hdefs
  obtain ⟨x, hx⟩ : ∃ x, subPtr (collectDefs t) (removeDefs t) = .ok x :=
    (exceptMapOk _ stripWS).mp ((inline_ok_iff t).mpr hapd)
  refine ⟨stripWS x, ?_, ?_, ?_⟩
  · unfold inlineFootnotes
    rw [hx]
    rfl
  · exact hasPtr_stripWS
      (subPtrF_noPtr _ hdefs _ _ (Nat.le_refl _) x hx)
  · intro m d hne hdig hsub hlk
    have hrx : containsSub (render d) x = true :=
      subPtrF_render _ _ _ (Nat.le_refl _) x hx m d hne hdig hlk hsub
    refine containsSub_stripWS (render_ne_nil d) ?_ ?_ hrx
    · intro c hc
      rw [render_head0 d] at hc
      have hcf : c = 'F' := by simpa using hc.symm
      rw [hcf]
      rfl
    · intro c hc
      rw [render_getLast d] at hc
      have hcf : c = '.' := by simpa using hc.symm
      rw [hcf]
      rfl

theorem tblLookup_mem {tbl : List (List Char × List Char)} {n d : List Char}
    (h : tblLookup tbl n = some d) : (n, d) ∈ tbl := by
  unfold tblLookup at h
  cases hlast : (tbl.filter (fun p => p.1 = n)).getLast? with
  | none => rw [hlast] at h; cases h
  | some p =>
    rw [hlast] at h
    have hne : tbl.filter (fun p => p.1 = n) ≠ [] := by
      intro hc
      rw [hc] at hlast
      cases hlast
    have hgl : (tbl.filter (fun p => p.1 = n)).getLast hne = p := by
      have h2 := List.getLast?_eq_getLast (tbl.filter (fun p => p.1 = n)) hne
      rw [hlast] at h2
      exact (Option.some.inj h2).symm
    have hp : p ∈ tbl.filter (fun p => p.1 = n) := by
      rw [← hgl]
      exact List.getLast_mem hne
    have h1 := (List.mem_filter.mp hp).1
    have h2 := (List.mem_filter.mp hp).2
    have hpnd : p = (n, d) := by
      cases p with
      | mk a b =>
        have hb : b = d := by simpa using h
        have ha : a = n := by simpa using h2
        rw [ha, hb]
    rwa [hpnd] at h1

/-- Witness for the amended C3 at a concrete fully-defined text. -/
theorem claim_C3_witness :
    ∃ out, inlineFootnotes "a [1] b\n[1] first".data = .ok out ∧
      hasPtr out = false ∧
      ∀ m d, m ≠ [] → m.all isDig = true →
        containsSub ('[' :: m ++ [']'])
          (removeDefs "a [1] b\n[1] first".data) = true →
        tblLookup (collectDefs "a [1] b\n[1] first".data) m = some d →
        containsSub (render d) out = true :=
  claim_C3 "a [1] b\n[1] first".data (by decide)
    (by
      intro k d hk
      have hkd := tblLookup_mem hk
      have hcol : collectDefs "a [1] b\n[1] first".data =
          [("1".data, "first".data)] := by decide
      rw [hcol] at hkd
      simp only [List.mem_singleton, Prod.mk.injEq] at hkd
      rw [hkd.2]
      decide)

/-! ## C9 -/

theorem matchFn_nonbr {c : Char} (hc : ¬c = '[') (rest : List Char) :
    matchFn (c :: rest) = none := by
  simp [matchFn, hc]

/-- Unfolding the scan when no match fires at the head. -/
theorem fnScanF_cons_none {n : Nat} {bol : Bool} {c : Char} {rest : List Char}
    (h : (if bol then matchFn (c :: rest) else none) = none) :
    fnScanF (n + 1) bol (c :: rest) =
      ((fnScanF n (decide (c = '\n')) rest).1,
        c :: (fnScanF n (decide (c = '\n')) rest).2) := by
  cases bol with
  | false => rfl
  | true =>
    simp only [if_true] at h
    simp only [fnScanF, if_true, h]

/-- A text without `[` has no match: the scan copies it verbatim. -/
theorem fnScanF_noBr : ∀ (n : Nat) (bol : Bool) (s : List Char),
    s.length ≤ n → '[' ∉ s → fnScanF n bol s = ([], s) := by
  intro n
  induction n with
  | zero =>
    intro bol s hm _
    have hs : s = [] := List.length_eq_zero.mp (Nat.le_zero.mp hm)
    subst hs
    rfl
  | succ n' ih =>
    intro bol s hm hbr
    cases s with
    | nil => rfl
    | cons c rest =>
      have hc : ¬c = '[' := fun he => hbr (he ▸ List.mem_cons_self _ _)
      have hnone : (if bol then matchFn (c :: rest) else none) = none := by
        cases bol with
        | false => rfl
        | true => simpa using matchFn_nonbr hc rest
      have hlen : rest.length ≤ n' := by
        simp only [List.length_cons] at hm
        omega
      rw [fnScanF_cons_none hnone, ih (decide (c = '\n')) rest hlen
        (fun h => hbr (List.mem_cons_of_mem _ h))]

/-- A bare `[n]` followed only by line breaks to the end of the text is not
a match: after backtracking, `(.+)` finds no character that is not a line
break. -/
theorem matchFn_bare {n nls : List Char} (hne : n ≠ [])
    (hdig : n.all isDig = true) (hnl : ∀ c ∈ nls, c = '\n') :
    matchFn ('[' :: (n ++ ']' :: nls)) = none := by
  have htw : (n ++ ']' :: nls).takeWhile isDig = n :=
    takeWhile_digits_append hdig nls
  have hdrop : (n ++ ']' :: nls).drop n.length = ']' :: nls :=
    List.drop_left n _
  have hw : nls.takeWhile isPyWS = nls :=
    takeWhile_eq_self_of_all (List.all_eq_true.mpr
      (fun c hc => by rw [hnl c hc]; rfl))
  have hrev : nls.reverse.takeWhile (fun c => c = '\n') = nls.reverse :=
    takeWhile_eq_self_of_all (List.all_eq_true.mpr
      (fun c hc => by
        rw [List.mem_reverse] at hc
        simp [hnl c hc]))
  simp only [matchFn, if_pos rfl, if_true, htw, if_neg hne, hdrop, hw,
    List.drop_length, hrev]

/-- The scan leaves a trailing bare `[n]` line untouched. -/
theorem fnScan_bare {n nls : List Char} (hne : n ≠ [])
    (hdig : n.all isDig = true) (hnl : ∀ c ∈ nls, c = '\n') :
    ∀ (f : Nat) (b : Bool), ('[' :: (n ++ ']' :: nls)).length ≤ f →
    fnScanF f b ('[' :: (n ++ ']' :: nls)) =
      ([], '[' :: (n ++ ']' :: nls)) := by
  intro f b hm
  cases f with
  | zero => simp at hm
  | succ f' =>
    have hbr : '[' ∉ n ++ ']' :: nls := by
      intro h
      rcases List.mem_append.mp h with h | h
      · have := List.all_eq_true.mp hdig _ h
        exact absurd this (by decide)
      · rcases List.mem_cons.mp h with h | h
        · exact absurd h (by decide)
        · exact absurd (hnl _ h) (by decide)
    have hnone : (if b then matchFn ('[' :: (n ++ ']' :: nls)) else none) =
        none := by
      cases b with
      | false => rfl
      | true => simpa using matchFn_bare hne hdig hnl
    show fnScanF (f' + 1) b ('[' :: (n ++ ']' :: nls)) = _
    rw [fnScanF_cons_none hnone,
      fnScanF_noBr f' _ _ (by simpa [List.length_cons] using hm) hbr]

/-- The beginning-of-line flag after the scan passes over `u`. -/
def bolA : List Char → Bool → Bool
  | [], b => b
  | c :: u, _ => bolA u (decide (c = '\n'))

/-- The scan copies a `[`-free prefix verbatim and continues behind it. -/
theorem fnScanF_append_noBr : ∀ (u : List Char) (bol : Bool) (f : Nat)
    (s : List Char), '[' ∉ u →
    fnScanF (f + u.length) bol (u ++ s) =
      ((fnScanF f (bolA u bol) s).1,
        u ++ (fnScanF f (bolA u bol) s).2) := by
  intro u
  induction u with
  | nil =>
    intro bol f s _
    simp [bolA]
  | cons c u' ih =>
    intro bol f s hbr
    have hc : ¬c = '[' := fun he => hbr (he ▸ List.mem_cons_self _ _)
    have hnone : (if bol then matchFn (c :: (u' ++ s)) else none) = none := by
      cases bol with
      | false => rfl
      | true => simpa using matchFn_nonbr hc (u' ++ s)
    rw [show f + (c :: u').length = (f + u'.length) + 1 from rfl,
      List.cons_append, fnScanF_cons_none hnone,
      ih (decide (c = '\n')) f s (fun h => hbr (List.mem_cons_of_mem _ h))]
    simp [bolA]

/-- The pointer substitution fails at the first pointer when its identifier
has no table entry and no `[` precedes it. -/
theorem subPtrF_err_at : ∀ (u : List Char)
    (tbl : List (List Char × List Char)) (f : Nat) (rest : List Char),
    '[' ∉ u → (u ++ '[' :: rest).length ≤ f → ptrAt rest = true →
    tblLookup tbl (rest.takeWhile isDig) = none →
    subPtrF tbl f (u ++ '[' :: rest) =
      .error (fnErr (rest.takeWhile isDig)) := by
  intro u
  induction u with
  | nil =>
    intro tbl f rest _ hm hptr hlk
    cases f with
    | zero => simp at hm
    | succ f' =>
      show subPtrF tbl (f' + 1) ('[' :: rest) = _
      simp only [subPtrF, hptr, hlk, decide_True, Bool.and_true, if_true]
  | cons c u' ih =>
    intro tbl f rest hbr hm hptr hlk
    have hc : ¬c = '[' := fun he => hbr (he ▸ List.mem_cons_self _ _)
    cases f with
    | zero => simp at hm
    | succ f' =>
      rw [List.cons_append]
      show subPtrF tbl (f' + 1) (c :: (u' ++ '[' :: rest)) = _
      have hcond : (decide (c = '[') && ptrAt (u' ++ '[' :: rest)) =
          false := by
        simp [hc]
      have hlen : (u' ++ '[' :: rest).length ≤ f' := by
        simp only [List.cons_append, List.length_cons] at hm ⊢
        simp only [List.length_append, List.length_cons] at hm ⊢
        omega
      simp only [subPtrF, hcond, if_false, Bool.false_eq_true]
      rw [ih tbl f' rest (fun h => hbr (List.mem_cons_of_mem _ h)) hlen
        hptr hlk]
      rfl

/-- C9 counterexample: on the text `intro\n[3]\nend` the bare `[3]` line
*is* recorded as a definition — the greedy cross-line `\s*` of the
collection pattern matches `[3]\nend` as one span, recording 3 with the
following line as its text and deleting both — and inlining succeeds,
contrary to the claimed dangling-footnote failure. -/
theorem claim_C9_counterexample :
    collectDefs "intro\n[3]\nend".data = [("3".data, "end".data)] ∧
    removeDefs "intro\n[3]\nend".data = "intro\n".data ∧
    inlineFootnotes "intro\n[3]\nend".data = .ok "intro".data :=
  ⟨by decide, by decide, rfl⟩

/-- C9 (amended): a bare `[n]` is withheld from the Footnote Table only
when nothing but line breaks follows it to the end of the text — otherwise
the collection pattern's greedy cross-line `\s*` reaches the following text
and records it as the definition (see the counterexample).  In that
trailing case the bare `[n]` is not recorded, survives deletion, and the
substitution pass matches it as an in-text pointer, so when no `[` occurs
earlier in the text the inliner fails with the `ValueError` naming `n`. -/
theorem claim_C9 (u n nls : List Char) (hu : '[' ∉ u) (hne : n ≠ [])
    (hdig : n.all isDig = true) (hnl : ∀ c ∈ nls, c = '\n') :
    collectDefs (u ++ ('[' :: (n ++ ']' :: nls))) = [] ∧
    removeDefs (u ++ ('[' :: (n ++ ']' :: nls))) =
      u ++ ('[' :: (n ++ ']' :: nls)) ∧
    inlineFootnotes (u ++ ('[' :: (n ++ ']' :: nls))) = .error (fnErr n) := by
  have hscan : fnScanF (u ++ ('[' :: (n ++ ']' :: nls))).length true
      (u ++ ('[' :: (n ++ ']' :: nls))) =
      ([], u ++ ('[' :: (n ++ ']' :: nls))) := by
    rw [show (u ++ ('[' :: (n ++ ']' :: nls))).length =
        ('[' :: (n ++ ']' :: nls)).length + u.length from by
      simp only [List.length_append, List.length_cons]
      omega]
    rw [fnScanF_append_noBr u true _ _ hu,
      fnScan_bare hne hdig hnl _ _ (Nat.le_refl _)]
  have hcol : collectDefs (u ++ ('[' :: (n ++ ']' :: nls))) = [] := by
    unfold collectDefs
    rw [hscan]
  have hrem : removeDefs (u ++ ('[' :: (n ++ ']' :: nls))) =
      u ++ ('[' :: (n ++ ']' :: nls)) := by
    unfold removeDefs
    rw [hscan]
  refine ⟨hcol, hrem, ?_⟩
  unfold inlineFootnotes subPtr
  rw [hcol, hrem]
  rw [subPtrF_err_at u [] _ (n ++ ']' :: nls) hu (Nat.le_refl _)
    (ptrAt_of_shape hne hdig nls) rfl]
  rw [takeWhile_digits_append hdig nls]
  rfl

/-- Witness for the amended C9 on `intro\n[3]\n`: the bare trailing `[3]`
line is not collected, survives removal, and inlining fails naming 3. -/
theorem claim_C9_witness :
    '[' ∉ "intro\n".data ∧
      collectDefs ("intro\n".data ++ ('[' :: ("3".data ++ ']' :: ['\n']))) =
        [] ∧
      removeDefs ("intro\n".data ++ ('[' :: ("3".data ++ ']' :: ['\n']))) =
        "intro\n".data ++ ('[' :: ("3".data ++ ']' :: ['\n'])) ∧
      inlineFootnotes
          ("intro\n".data ++ ('[' :: ("3".data ++ ']' :: ['\n']))) =
        .error (fnErr "3".data) := by
  have h := claim_C9 "intro\n".data "3".data ['\n'] (by decide) (by decide)
    (by decide) (by decide)
  exact ⟨by decide, h.1, h.2.1, h.2.2⟩

/-! ## C10 -/

/-- C10: the substitution pass never rescans inserted replacement text — if
a definition text `d` for footnote `n` itself contains a bracketed digit
sequence `[m]`, the inlined rendering appears in the output with `[m]`
verbatim inside it, never recursively expanded, and never causes a
dangling-footnote failure even when `m` has no definition. -/
theorem claim_C10 :
    ∀ t n d m : List Char,
      allPtrsDefined (collectDefs t) (removeDefs t) = true →
      n ≠ [] → n.all isDig = true →
      tblLookup (collectDefs t) n = some d →
      containsSub ('[' :: n ++ [']']) (removeDefs t) = true →
      m ≠ [] → m.all isDig = true →
      containsSub ('[' :: m ++ [']']) d = true →
      tblLookup (collectDefs t) m = none →
      ∃ out, inlineFootnotes t = .ok out ∧
        containsSub (render d) out = true ∧
        containsSub ('[' :: m ++ [']']) out = true := by
  intro t n d m hapd hnne hndig hnlk hnsub hmne hmdig hmsub hmlk
  obtain ⟨x, hx⟩ : ∃ x, subPtr (collectDefs t) (removeDefs t) = .ok x :=
    (exceptMapOk _ stripWS).mp ((inline_ok_iff t).mpr hapd)
  have hrx : containsSub (render d) x = true :=
    subPtrF_render _ _ _ (Nat.le_refl _) x hx n d hnne hndig hnlk hnsub
  have hrout : containsSub (render d) (stripWS x) = true := by
    refine containsSub_stripWS (render_ne_nil d) ?_ ?_ hrx
    · intro c hc
      rw [render_head0 d] at hc
      have hcf : c = 'F' := by simpa using hc.symm
      rw [hcf]
      rfl
    · intro c hc
      rw [render_getLast d] at hc
      have hcf : c = '.' := by simpa using hc.symm
      rw [hcf]
      rfl
  refine ⟨stripWS x, ?_, hrout, ?_⟩
  · unfold inlineFootnotes
    rw [hx]
    rfl
  · have hmd : containsSub ('[' :: m ++ [']']) (stripWS d) = true := by
      refine containsSub_stripWS (by intro h; cases h) ?_ ?_ hmsub
      · intro c hc
        simp only [List.cons_append, List.head?_cons, Option.some.injEq] at hc
        rw [← hc]
        rfl
      · intro c hc
        rw [ptrTok_getLast m] at hc
        have hcf : c = ']' := by simpa using hc.symm
        rw [hcf]
        rfl
    have hmr : containsSub ('[' :: m ++ [']']) (render d) = true := by
      unfold render
      exact containsSub_append_right (containsSub_append_left hmd)
    exact containsSub_trans hmr hrout

/-- Witness for C10 at a concrete text whose footnote definition contains an
undefined bracketed sequence. -/
theorem claim_C10_witness :
    ∃ out, inlineFootnotes "x [1]\n[1] see [2]".data = .ok out ∧
      containsSub (render "see [2]".data) out = true ∧
      containsSub ('[' :: "2".data ++ [']']) out = true :=
  claim_C10 "x [1]\n[1] see [2]".data "1".data "see [2]".data "2".data
    (by decide) (by decide) (by decide) (by decide) (by decide)
    (by decide) (by decide) (by decide) (by decide)

/-! ## Idempotence of the whitespace normalizer

Strategy: for each rewrite step a Boolean predicate states that the step's
pattern does not occur; each step establishes its own predicate, later steps
preserve it, and each step is the identity on pattern-free text. -/

theorem mem_takeWhile_mem {p : Char → Bool} :
    ∀ {l : List Char} {c : Char}, c ∈ l.takeWhile p → c ∈ l := by
  intro l
  induction l with
  | nil => intro c h; simp at h
  | cons a rest ih =>
    intro c h
    by_cases ha : p a
    · rw [List.takeWhile_cons_of_pos ha, List.mem_cons] at h
      rcases h with h | h
      · exact h ▸ List.mem_cons_self _ _
      · exact List.mem_cons_of_mem _ (ih h)
    · rw [List.takeWhile_cons_of_neg ha] at h
      simp at h

theorem length_takeWhile_le (p : Char → Bool) (l : List Char) :
    (l.takeWhile p).length ≤ l.length := by
  induction l with
  | nil => simp
  | cons a rest ih =>
    by_cases ha : p a
    · rw [List.takeWhile_cons_of_pos ha]
      simpa using ih
    · rw [List.takeWhile_cons_of_neg ha]
      simp

theorem takeWhile_eq_self_of_length {p : Char → Bool} {l : List Char}
    (h : (l.takeWhile p).length = l.length) : l.takeWhile p = l := by
  have hdec := takeWhile_decomp p l
  have hlen := congrArg List.length hdec
  rw [List.length_append] at hlen
  have hdrop : (l.drop (l.takeWhile p).length).length = 0 := by omega
  rw [List.length_eq_zero] at hdrop
  have h2 : l = l.takeWhile p ++ [] := by
    rw [← hdrop]
    exact hdec
  conv_rhs => rw [h2]
  simp

theorem exists_takeWhile_append (p : Char → Bool) (x y : List Char) :
    ∃ z, (x ++ y).takeWhile p = x.takeWhile p ++ z := by
  rw [List.takeWhile_append]
  by_cases h : (x.takeWhile p).length = x.length
  · rw [if_pos h]
    exact ⟨y.takeWhile p, by rw [takeWhile_eq_self_of_length h]⟩
  · rw [if_neg h]
    exact ⟨[], by simp⟩

theorem mem_takeWhile_append {p : Char → Bool} {c : Char} {x : List Char}
    (h : c ∈ x.takeWhile p) (y : List Char) : c ∈ (x ++ y).takeWhile p := by
  obtain ⟨z, hz⟩ := exists_takeWhile_append p x y
  rw [hz]
  exact List.mem_append_left _ h

theorem dropWhile_eq_drop_len (p : Char → Bool) :
    ∀ (l : List Char), l.dropWhile p = l.drop (l.takeWhile p).length := by
  intro l
  induction l with
  | nil => rfl
  | cons a rest ih =>
    by_cases ha : p a
    · rw [List.dropWhile_cons_of_pos ha, List.takeWhile_cons_of_pos ha,
        List.length_cons, List.drop_succ_cons, ih]
    · rw [List.dropWhile_cons_of_neg ha, List.takeWhile_cons_of_neg ha]
      rfl

theorem head_dropWhile_not (p : Char → Bool) :
    ∀ (l : List Char) {c : Char}, (l.dropWhile p).head? = some c → p c = false := by
  intro l
  induction l with
  | nil => intro c h; cases h
  | cons a rest ih =>
    intro c h
    by_cases ha : p a
    · rw [List.dropWhile_cons_of_pos ha] at h
      exact ih h
    · rw [List.dropWhile_cons_of_neg ha] at h
      simp only [List.head?_cons, Option.some.injEq] at h
      subst h
      simpa using ha

theorem afterLastNl_no_nl (w : List Char) : '\n' ∉ afterLastNl w := by
  intro h
  unfold afterLastNl at h
  rw [List.mem_reverse] at h
  have := mem_takeWhile_pred h
  simp at this

theorem mem_afterLastNl {c : Char} {w : List Char} (h : c ∈ afterLastNl w) :
    c ∈ w := by
  unfold afterLastNl at h
  rw [List.mem_reverse] at h
  exact List.mem_reverse.mp (mem_takeWhile_mem h)

theorem afterLastNl_len {w : List Char} (h : '\n' ∈ w) :
    (afterLastNl w).length + 1 ≤ w.length := by
  have hall : w.reverse.all (fun c => !(c = '\n')) = false := by
    cases hc : w.reverse.all (fun c => !(c = '\n'))
    · rfl
    · exfalso
      have := List.all_eq_true.mp hc '\n' (List.mem_reverse.mpr h)
      simp at this
  have := takeWhile_len_lt_of_not_all hall
  unfold afterLastNl
  rw [List.length_reverse]
  rw [List.length_reverse] at this
  omega

/-- Length bound for the continuation after a greedy `\s*\n` match. -/
theorem cont_len {cs : List Char} (h : '\n' ∈ cs.takeWhile isPyWS) :
    (afterLastNl (cs.takeWhile isPyWS) ++
      cs.drop (cs.takeWhile isPyWS).length).length + 1 ≤ cs.length := by
  have h1 := afterLastNl_len h
  have h2 := length_takeWhile_le isPyWS cs
  rw [List.length_append, List.length_drop]
  omega

/-- The whitespace prefix of the continuation after a greedy match is the
newline-free residue of the run. -/
theorem wsPre_cont (cs : List Char) :
    (afterLastNl (cs.takeWhile isPyWS) ++
        cs.drop (cs.takeWhile isPyWS).length).takeWhile isPyWS =
      afterLastNl (cs.takeWhile isPyWS) := by
  have hws : ∀ c ∈ afterLastNl (cs.takeWhile isPyWS), isPyWS c = true :=
    fun c hc => mem_takeWhile_pred (mem_afterLastNl hc)
  rw [List.takeWhile_append,
    if_pos (by rw [takeWhile_eq_self_of_all (List.all_eq_true.mpr hws)])]
  have hrest : (cs.drop (cs.takeWhile isPyWS).length).takeWhile isPyWS = [] := by
    rw [← dropWhile_eq_drop_len]
    cases hd : cs.dropWhile isPyWS with
    | nil => rfl
    | cons y t =>
      have hy : isPyWS y = false := head_dropWhile_not isPyWS cs (by rw [hd]; rfl)
      rw [List.takeWhile_cons_of_neg (by simp [hy])]
  rw [hrest, List.append_nil]

/-- No occurrence of the step-1 pattern `=\s*\n`: the whitespace run after
each `=` contains no newline. -/
def p1free : List Char → Bool
  | [] => true
  | c :: rest =>
    (if c = '=' then decide ('\n' ∉ rest.takeWhile isPyWS) else true)
      && p1free rest

/-- No occurrence of the step-2 pattern `\n\s*\n\s*\n+`: the whitespace run
after each newline contains at most one further newline. -/
def p2free : List Char → Bool
  | [] => true
  | c :: rest =>
    (if c = '\n' then decide (countNl (rest.takeWhile isPyWS) < 2) else true)
      && p2free rest

/-- Every maximal horizontal-whitespace run is exactly one space. -/
def p3free : List Char → Bool
  | [] => true
  | [c] => !isHWS c || c = ' '
  | c :: d :: rest =>
    (if isHWS c then decide (c = ' ') && !isHWS d else true)
      && p3free (d :: rest)

/-- No space immediately precedes a newline. -/
def p4free : List Char → Bool
  | [] => true
  | [_] => true
  | c :: d :: rest => !(c = ' ' && d = '\n') && p4free (d :: rest)

/-- No leading or trailing whitespace. -/
def strippedWS (s : List Char) : Bool :=
  (match s.head? with | some c => !isPyWS c | none => true)
    && (match s.getLast? with | some c => !isPyWS c | none => true)

theorem p1free_tail {c : Char} {cs : List Char} (h : p1free (c :: cs) = true) :
    p1free cs = true := by
  simp only [p1free, Bool.and_eq_true] at h
  exact h.2

theorem p2free_tail {c : Char} {cs : List Char} (h : p2free (c :: cs) = true) :
    p2free cs = true := by
  simp only [p2free, Bool.and_eq_true] at h
  exact h.2

theorem p3free_tail {c : Char} {cs : List Char} (h : p3free (c :: cs) = true) :
    p3free cs = true := by
  cases cs with
  | nil => rfl
  | cons d rest =>
    simp only [p3free, Bool.and_eq_true] at h
    exact h.2

theorem p4free_tail {c : Char} {cs : List Char} (h : p4free (c :: cs) = true) :
    p4free cs = true := by
  cases cs with
  | nil => rfl
  | cons d rest =>
    simp only [p4free, Bool.and_eq_true] at h
    exact h.2

theorem p1free_head {cs : List Char} (h : p1free ('=' :: cs) = true) :
    '\n' ∉ cs.takeWhile isPyWS := by
  simp [p1free] at h
  exact h.1

theorem p2free_head {cs : List Char} (h : p2free ('\n' :: cs) = true) :
    countNl (cs.takeWhile isPyWS) < 2 := by
  simp [p2free] at h
  exact h.1

theorem step1F_id : ∀ (n : Nat) (s : List Char), s.length ≤ n →
    p1free s = true → step1F n s = s := by
  intro n s
  induction n, s using step1F.induct with
  | case1 s =>
    intro _ _
    rfl
  | case2 n =>
    intro _ _
    rfl
  | case3 n cs w hw ih =>
    intro hm hp
    exact absurd hw (p1free_head hp)
  | case4 n cs w hw ih =>
    intro hm hp
    simp only [step1F, if_pos rfl]
    rw [if_neg hw, ih (Nat.le_of_succ_le_succ hm) (p1free_tail hp)]
    simp
  | case5 n c cs hc ih =>
    intro hm hp
    simp only [step1F, if_neg hc]
    rw [ih (Nat.le_of_succ_le_succ hm) (p1free_tail hp)]

theorem step2F_id : ∀ (n : Nat) (s : List Char), s.length ≤ n →
    p2free s = true → step2F n s = s := by
  intro n s
  induction n, s using step2F.induct with
  | case1 s =>
    intro _ _
    rfl
  | case2 n =>
    intro _ _
    rfl
  | case3 n cs w hw ih =>
    intro hm hp
    have hw2 : 2 ≤ countNl (List.takeWhile isPyWS cs) := hw
    have := p2free_head hp
    omega
  | case4 n cs w hw ih =>
    intro hm hp
    simp only [step2F, if_pos rfl]
    rw [if_neg hw, ih (Nat.le_of_succ_le_succ hm) (p2free_tail hp)]
    simp
  | case5 n c cs hc ih =>
    intro hm hp
    simp only [step2F, if_neg hc]
    rw [ih (Nat.le_of_succ_le_succ hm) (p2free_tail hp)]

theorem step3_id : ∀ {s : List Char}, p3free s = true → step3 s = s := by
  intro s
  induction s using step3.induct with
  | case1 =>
    intro _
    rfl
  | case2 c hc =>
    intro hp
    have hcs : c = ' ' := by
      simp only [p3free, hc, Bool.not_true, Bool.false_or,
        decide_eq_true_eq] at hp
      exact hp
    simp [step3, hc, hcs]
  | case3 c hc =>
    intro _
    simp [step3, hc]
  | case4 c d rest hc hd ih =>
    intro hp
    exfalso
    simp only [p3free, if_pos hc, hd, Bool.and_eq_true] at hp
    simp at hp
  | case5 c d rest hc hd ih =>
    intro hp
    have h1 : c = ' ' := by
      simp only [p3free, if_pos hc, Bool.and_eq_true, decide_eq_true_eq] at hp
      exact hp.1.1
    simp only [step3, if_pos hc, if_neg hd]
    rw [ih (p3free_tail hp), h1]
  | case6 c d rest hc ih =>
    intro hp
    simp only [step3, if_neg hc]
    rw [ih (p3free_tail hp)]

theorem p4free_no_match : ∀ {cs : List Char}, p4free (' ' :: cs) = true →
    ¬(cs.dropWhile (fun d => d = ' ')).head? = some '\n' := by
  intro cs
  induction cs with
  | nil =>
    intro _ h
    cases h
  | cons d cs' ih =>
    intro hp h
    simp only [p4free, Bool.and_eq_true] at hp
    by_cases hd : d = ' '
    · subst hd
      rw [List.dropWhile_cons_of_pos (by simp)] at h
      exact ih hp.2 h
    · rw [List.dropWhile_cons_of_neg (by simpa using hd)] at h
      simp only [List.head?_cons, Option.some.injEq] at h
      subst h
      simp at hp

theorem step4_id : ∀ {s : List Char}, p4free s = true → step4 s = s := by
  intro s
  induction s using step4.induct with
  | case1 =>
    intro _
    rfl
  | case2 cs hmatch ih =>
    intro hp
    exact absurd hmatch (p4free_no_match hp)
  | case3 cs hmatch ih =>
    intro hp
    simp only [step4, if_pos rfl]
    rw [if_neg hmatch, ih (p4free_tail hp)]
    simp
  | case4 c cs hc ih =>
    intro hp
    simp only [step4, if_neg hc]
    rw [ih (p4free_tail hp)]

theorem stripWS_id_of_stripped {s : List Char} (h : strippedWS s = true) :
    stripWS s = s := by
  unfold strippedWS at h
  rw [Bool.and_eq_true] at h
  obtain ⟨hh, hl⟩ := h
  have h1 : s.dropWhile isPyWS = s := by
    cases s with
    | nil => rfl
    | cons c cs =>
      simp only [List.head?_cons] at hh
      rw [List.dropWhile_cons_of_neg (by simpa using hh)]
  have h2 : s.reverse.dropWhile isPyWS = s.reverse := by
    cases hrev : s.reverse with
    | nil => rfl
    | cons c cs =>
      have hgl : s.getLast? = some c := by
        rw [← List.head?_reverse, hrev]
        rfl
      rw [hgl] at hl
      rw [List.dropWhile_cons_of_neg (by simpa using hl)]
  unfold stripWS
  rw [h1, h2, List.reverse_reverse]

theorem countNl_zero {l : List Char} (h : '\n' ∉ l) : countNl l = 0 := by
  unfold countNl
  rw [List.countP_eq_zero]
  intro c hc
  simp only [decide_eq_true_eq]
  intro hceq
  exact h (hceq ▸ hc)

theorem countNl_cons (c : Char) (l : List Char) :
    countNl (c :: l) = (if c = '\n' then 1 else 0) + countNl l := by
  unfold countNl
  rw [List.countP_cons]
  by_cases hc : c = '\n' <;> simp [hc] <;> omega

/-- Step 1 creates no newline in the leading whitespace run. -/
theorem step1F_wsPre : ∀ (n : Nat) (s : List Char), s.length ≤ n →
    '\n' ∉ s.takeWhile isPyWS →
    '\n' ∉ (step1F n s).takeWhile isPyWS := by
  intro n s
  induction n, s using step1F.induct with
  | case1 s =>
    intro _ h
    exact h
  | case2 n =>
    intro _ h
    exact h
  | case3 n cs w hw ih =>
    intro hm _
    have hlen : (afterLastNl w ++ cs.drop w.length).length ≤ n := by
      show (afterLastNl (cs.takeWhile isPyWS) ++
        cs.drop (cs.takeWhile isPyWS).length).length ≤ n
      have h9 : '\n' ∈ cs.takeWhile isPyWS := hw
      have := cont_len h9
      simp only [List.length_cons] at hm
      omega
    have hpre : '\n' ∉ (afterLastNl w ++
        cs.drop w.length).takeWhile isPyWS := by
      show '\n' ∉ (afterLastNl (cs.takeWhile isPyWS) ++
        cs.drop (cs.takeWhile isPyWS).length).takeWhile isPyWS
      rw [wsPre_cont cs]
      exact afterLastNl_no_nl _
    simp only [step1F, if_pos rfl, if_pos hw]
    simpa using ih hlen hpre
  | case4 n cs w hw ih =>
    intro hm _
    simp only [step1F, if_pos rfl, if_neg hw]
    have h0 : ('=' :: step1F n cs).takeWhile isPyWS = [] :=
      List.takeWhile_cons_of_neg (by decide)
    simp [h0]
  | case5 n c cs hc ih =>
    intro hm hpre
    simp only [step1F, if_neg hc]
    by_cases hws : isPyWS c
    · rw [List.takeWhile_cons_of_pos hws] at hpre ⊢
      simp only [List.mem_cons, not_or] at hpre ⊢
      exact ⟨hpre.1, ih (Nat.le_of_succ_le_succ hm) hpre.2⟩
    · rw [List.takeWhile_cons_of_neg (by simpa using hws)]
      simp

/-- Step 1 establishes freedom from its own pattern. -/
theorem step1F_p1free : ∀ (n : Nat) (s : List Char), s.length ≤ n →
    p1free (step1F n s) = true := by
  intro n s
  induction n, s using step1F.induct with
  | case1 s =>
    intro hm
    have hs : s = [] := List.length_eq_zero.mp (Nat.le_zero.mp hm)
    rw [hs]
    rfl
  | case2 n =>
    intro _
    rfl
  | case3 n cs w hw ih =>
    intro hm
    have hlen : (afterLastNl w ++ cs.drop w.length).length ≤ n := by
      show (afterLastNl (cs.takeWhile isPyWS) ++
        cs.drop (cs.takeWhile isPyWS).length).length ≤ n
      have h9 : '\n' ∈ cs.takeWhile isPyWS := hw
      have := cont_len h9
      simp only [List.length_cons] at hm
      omega
    simp only [step1F, if_pos rfl, if_pos hw]
    simpa using ih hlen
  | case4 n cs w hw ih =>
    intro hm
    simp only [step1F, if_pos rfl, if_neg hw]
    simp only [p1free, if_pos rfl, if_true, Bool.and_eq_true, decide_eq_true_eq]
    exact ⟨step1F_wsPre n cs (Nat.le_of_succ_le_succ hm) hw,
      ih (Nat.le_of_succ_le_succ hm)⟩
  | case5 n c cs hc ih =>
    intro hm
    simp only [step1F, if_neg hc]
    simp only [p1free, if_neg hc, Bool.and_eq_true]
    exact ⟨trivial, ih (Nat.le_of_succ_le_succ hm)⟩

theorem countNl_append (a b : List Char) :
    countNl (a ++ b) = countNl a + countNl b := by
  unfold countNl
  exact List.countP_append _ _ _

theorem countNl_eq_zero {l : List Char} : countNl l = 0 ↔ '\n' ∉ l := by
  constructor
  · intro h hm
    unfold countNl at h
    rw [List.countP_eq_zero] at h
    have := h '\n' hm
    simp at this
  · exact countNl_zero

theorem p1free_suffix : ∀ (u t : List Char), p1free (u ++ t) = true →
    p1free t = true := by
  intro u
  induction u with
  | nil => intro t h; exact h
  | cons c u' ih =>
    intro t h
    exact ih t (p1free_tail h)

theorem p2free_suffix : ∀ (u t : List Char), p2free (u ++ t) = true →
    p2free t = true := by
  intro u
  induction u with
  | nil => intro t h; exact h
  | cons c u' ih =>
    intro t h
    exact ih t (p2free_tail h)

theorem p3free_suffix : ∀ (u t : List Char), p3free (u ++ t) = true →
    p3free t = true := by
  intro u
  induction u with
  | nil => intro t h; exact h
  | cons c u' ih =>
    intro t h
    exact ih t (p3free_tail h)

theorem p4free_suffix : ∀ (u t : List Char), p4free (u ++ t) = true →
    p4free t = true := by
  intro u
  induction u with
  | nil => intro t h; exact h
  | cons c u' ih =>
    intro t h
    exact ih t (p4free_tail h)

theorem p1free_drop : ∀ (k : Nat) {s : List Char}, p1free s = true →
    p1free (s.drop k) = true := by
  intro k
  induction k with
  | zero => intro s h; exact h
  | succ k' ih =>
    intro s h
    cases s with
    | nil => exact h
    | cons c rest =>
      rw [List.drop_succ_cons]
      exact ih (p1free_tail h)

theorem p2free_drop : ∀ (k : Nat) {s : List Char}, p2free s = true →
    p2free (s.drop k) = true := by
  intro k
  induction k with
  | zero => intro s h; exact h
  | succ k' ih =>
    intro s h
    cases s with
    | nil => exact h
    | cons c rest =>
      rw [List.drop_succ_cons]
      exact ih (p2free_tail h)

theorem p1free_cons {c : Char} {l : List Char}
    (hc : c = '=' → '\n' ∉ l.takeWhile isPyWS) (h : p1free l = true) :
    p1free (c :: l) = true := by
  simp only [p1free, Bool.and_eq_true]
  refine ⟨?_, h⟩
  by_cases he : c = '='
  · rw [if_pos he]
    simpa using hc he
  · rw [if_neg he]

theorem p2free_cons {c : Char} {l : List Char}
    (hc : c = '\n' → countNl (l.takeWhile isPyWS) < 2) (h : p2free l = true) :
    p2free (c :: l) = true := by
  simp only [p2free, Bool.and_eq_true]
  refine ⟨?_, h⟩
  by_cases he : c = '\n'
  · rw [if_pos he]
    simpa using hc he
  · rw [if_neg he]

theorem p3free_cons_nonhws {c : Char} {l : List Char}
    (hc : isHWS c = false) (h : p3free l = true) : p3free (c :: l) = true := by
  cases l with
  | nil => simp [p3free, hc]
  | cons d rest => simp [p3free, hc, h]

theorem p3free_cons_space {l : List Char} (h : p3free l = true)
    (hh : ∀ e, l.head? = some e → isHWS e = false) :
    p3free (' ' :: l) = true := by
  cases l with
  | nil => decide
  | cons d rest =>
    have hd := hh d rfl
    simp [p3free, hd, h]

theorem p4free_cons_nonspace {c : Char} {l : List Char}
    (hc : ¬c = ' ') (h : p4free l = true) : p4free (c :: l) = true := by
  cases l with
  | nil => rfl
  | cons d rest => simp [p4free, hc, h]

theorem p4free_cons_space {l : List Char} (hh : ¬l.head? = some '\n')
    (h : p4free l = true) : p4free (' ' :: l) = true := by
  cases l with
  | nil => rfl
  | cons d rest =>
    have hd : ¬d = '\n' := fun he => hh (by rw [he]; rfl)
    simp [p4free, hd, h]

theorem p1free_front : ∀ (t v : List Char), p1free (t ++ v) = true →
    p1free t = true := by
  intro t
  induction t with
  | nil => intro v _; rfl
  | cons c t' ih =>
    intro v h
    rw [List.cons_append] at h
    refine p1free_cons ?_ (ih v (p1free_tail h))
    intro he hm
    subst he
    exact p1free_head h (mem_takeWhile_append hm v)

theorem p2free_front : ∀ (t v : List Char), p2free (t ++ v) = true →
    p2free t = true := by
  intro t
  induction t with
  | nil => intro v _; rfl
  | cons c t' ih =>
    intro v h
    rw [List.cons_append] at h
    refine p2free_cons ?_ (ih v (p2free_tail h))
    intro he
    subst he
    have hbig := p2free_head h
    obtain ⟨z, hz⟩ := exists_takeWhile_append isPyWS t' v
    rw [hz, countNl_append] at hbig
    omega

theorem p3free_front : ∀ (t v : List Char), p3free (t ++ v) = true →
    p3free t = true := by
  intro t
  induction t using p3free.induct with
  | case1 => intro v _; rfl
  | case2 c =>
    intro v h
    cases v with
    | nil => simpa using h
    | cons d v' =>
      simp only [List.cons_append, List.nil_append, p3free,
        Bool.and_eq_true] at h
      by_cases hc : isHWS c
      · simp only [if_pos hc, Bool.and_eq_true, decide_eq_true_eq] at h
        simp [p3free, h.1.1]
      · simp [p3free, hc]
  | case3 c d rest ih =>
    intro v h
    simp only [List.cons_append, p3free, Bool.and_eq_true] at h ⊢
    exact ⟨h.1, ih v h.2⟩

theorem p4free_front : ∀ (t v : List Char), p4free (t ++ v) = true →
    p4free t = true := by
  intro t
  induction t with
  | nil => intro v _; rfl
  | cons c t' ih =>
    intro v h
    cases t' with
    | nil => rfl
    | cons d t'' =>
      rw [List.cons_append, List.cons_append] at h
      simp only [p4free, Bool.and_eq_true] at h ⊢
      exact ⟨h.1, by
        have := ih v (by rw [List.cons_append]; exact h.2)
        exact this⟩

theorem p1free_stripWS {s : List Char} (h : p1free s = true) :
    p1free (stripWS s) = true := by
  obtain ⟨u, v, huv⟩ := stripWS_decomp s
  rw [huv] at h
  exact p1free_front _ _ (p1free_suffix u _ (by rwa [← List.append_assoc]))

theorem p2free_stripWS {s : List Char} (h : p2free s = true) :
    p2free (stripWS s) = true := by
  obtain ⟨u, v, huv⟩ := stripWS_decomp s
  rw [huv] at h
  exact p2free_front _ _ (p2free_suffix u _ (by rwa [← List.append_assoc]))

theorem p3free_stripWS {s : List Char} (h : p3free s = true) :
    p3free (stripWS s) = true := by
  obtain ⟨u, v, huv⟩ := stripWS_decomp s
  rw [huv] at h
  exact p3free_front _ _ (p3free_suffix u _ (by rwa [← List.append_assoc]))

theorem p4free_stripWS {s : List Char} (h : p4free s = true) :
    p4free (stripWS s) = true := by
  obtain ⟨u, v, huv⟩ := stripWS_decomp s
  rw [huv] at h
  exact p4free_front _ _ (p4free_suffix u _ (by rwa [← List.append_assoc]))

theorem ws_ne_eq {c : Char} (h : isPyWS c = true) : ¬c = '=' := by
  intro he
  rw [he] at h
  exact absurd h (by decide)

theorem p1free_append_noeq {a b : List Char} (ha : ∀ c ∈ a, ¬c = '=')
    (hb : p1free b = true) : p1free (a ++ b) = true := by
  induction a with
  | nil => exact hb
  | cons c a' ih =>
    rw [List.cons_append]
    refine p1free_cons ?_ (ih (fun d hd => ha d (List.mem_cons_of_mem _ hd)))
    intro he
    exact absurd he (ha c (List.mem_cons_self _ _))

theorem takeWhile_ws_cons_nl (l : List Char) :
    ('\n' :: l).takeWhile isPyWS = '\n' :: l.takeWhile isPyWS :=
  List.takeWhile_cons_of_pos (by decide)

/-- Step 2 creates no newline in the leading whitespace run when the input
has none. -/
theorem step2F_wsPre : ∀ (n : Nat) (s : List Char), s.length ≤ n →
    '\n' ∉ s.takeWhile isPyWS →
    '\n' ∉ (step2F n s).takeWhile isPyWS := by
  intro n s
  induction n, s using step2F.induct with
  | case1 s =>
    intro _ h
    exact h
  | case2 n =>
    intro _ h
    exact h
  | case3 n cs w hw ih =>
    intro _ hpre
    exfalso
    exact hpre (by rw [List.takeWhile_cons_of_pos (by decide)]; exact
      List.mem_cons_self _ _)
  | case4 n cs w hw ih =>
    intro _ hpre
    exfalso
    exact hpre (by rw [List.takeWhile_cons_of_pos (by decide)]; exact
      List.mem_cons_self _ _)
  | case5 n c cs hc ih =>
    intro hm hpre
    simp only [step2F, if_neg hc]
    by_cases hws : isPyWS c
    · rw [List.takeWhile_cons_of_pos hws] at hpre ⊢
      simp only [List.mem_cons, not_or] at hpre ⊢
      exact ⟨hpre.1, ih (Nat.le_of_succ_le_succ hm) hpre.2⟩
    · rw [List.takeWhile_cons_of_neg (by simpa using hws)]
      simp

/-- Step 2 does not increase the newline count of the leading whitespace
run. -/
theorem step2F_countNl : ∀ (n : Nat) (s : List Char), s.length ≤ n →
    countNl ((step2F n s).takeWhile isPyWS) ≤
      countNl (s.takeWhile isPyWS) := by
  intro n s
  induction n, s using step2F.induct with
  | case1 s =>
    intro _
    exact Nat.le_refl _
  | case2 n =>
    intro _
    exact Nat.le_refl _
  | case3 n cs w hw ih =>
    intro hm
    have hw2 : 2 ≤ countNl (cs.takeWhile isPyWS) := hw
    have hmem : '\n' ∈ cs.takeWhile isPyWS := by
      by_contra hnm
      have h0 := countNl_eq_zero.mpr hnm
      omega
    have hlen : (afterLastNl (cs.takeWhile isPyWS) ++
        cs.drop (cs.takeWhile isPyWS).length).length ≤ n := by
      have := cont_len hmem
      simp only [List.length_cons] at hm
      omega
    have hcont : '\n' ∉ (afterLastNl (cs.takeWhile isPyWS) ++
        cs.drop (cs.takeWhile isPyWS).length).takeWhile isPyWS := by
      rw [wsPre_cont cs]
      exact afterLastNl_no_nl _
    have hout := step2F_wsPre n _ hlen hcont
    simp only [step2F, if_pos rfl, if_pos hw, if_true, takeWhile_ws_cons_nl,
      countNl_cons, if_pos rfl]
    rw [countNl_zero hout]
    omega
  | case4 n cs w hw ih =>
    intro hm
    simp only [step2F, if_pos rfl, if_neg hw, if_true, takeWhile_ws_cons_nl,
      countNl_cons, if_pos rfl]
    have := ih (Nat.le_of_succ_le_succ hm)
    omega
  | case5 n c cs hc ih =>
    intro hm
    simp only [step2F, if_neg hc]
    by_cases hws : isPyWS c
    · rw [List.takeWhile_cons_of_pos hws, List.takeWhile_cons_of_pos hws,
        countNl_cons, countNl_cons]
      have := ih (Nat.le_of_succ_le_succ hm)
      rw [if_neg hc]
      omega
    · rw [List.takeWhile_cons_of_neg (by simpa using hws)]
      show countNl [] ≤ _
      rw [countNl_eq_zero.mpr (by simp)]
      exact Nat.zero_le _

/-- Step 2 establishes freedom from its own pattern. -/
theorem step2F_p2free : ∀ (n : Nat) (s : List Char), s.length ≤ n →
    p2free (step2F n s) = true := by
  intro n s
  induction n, s using step2F.induct with
  | case1 s =>
    intro hm
    have hs : s = [] := List.length_eq_zero.mp (Nat.le_zero.mp hm)
    rw [hs]
    rfl
  | case2 n =>
    intro _
    rfl
  | case3 n cs w hw ih =>
    intro hm
    have hw2 : 2 ≤ countNl (cs.takeWhile isPyWS) := hw
    have hmem : '\n' ∈ cs.takeWhile isPyWS := by
      by_contra hnm
      have h0 := countNl_eq_zero.mpr hnm
      omega
    have hlen : (afterLastNl (cs.takeWhile isPyWS) ++
        cs.drop (cs.takeWhile isPyWS).length).length ≤ n := by
      have := cont_len hmem
      simp only [List.length_cons] at hm
      omega
    have hcont : '\n' ∉ (afterLastNl (cs.takeWhile isPyWS) ++
        cs.drop (cs.takeWhile isPyWS).length).takeWhile isPyWS := by
      rw [wsPre_cont cs]
      exact afterLastNl_no_nl _
    have hout := step2F_wsPre n _ hlen hcont
    simp only [step2F, if_pos rfl, if_pos hw, if_true]
    refine p2free_cons ?_ (p2free_cons ?_ (ih hlen))
    · intro _
      rw [takeWhile_ws_cons_nl, countNl_cons, countNl_zero hout]
      decide
    · intro _
      rw [countNl_zero hout]
      decide
  | case4 n cs w hw ih =>
    intro hm
    have hw2 : ¬2 ≤ countNl (cs.takeWhile isPyWS) := hw
    simp only [step2F, if_pos rfl, if_neg hw, if_true]
    refine p2free_cons ?_ (ih (Nat.le_of_succ_le_succ hm))
    intro _
    have := step2F_countNl n cs (Nat.le_of_succ_le_succ hm)
    omega
  | case5 n c cs hc ih =>
    intro hm
    simp only [step2F, if_neg hc]
    exact p2free_cons (fun he => absurd he hc)
      (ih (Nat.le_of_succ_le_succ hm))

/-- Step 2 preserves freedom from the step-1 pattern. -/
theorem step2F_p1free : ∀ (n : Nat) (s : List Char), s.length ≤ n →
    p1free s = true → p1free (step2F n s) = true := by
  intro n s
  induction n, s using step2F.induct with
  | case1 s =>
    intro _ hp
    exact hp
  | case2 n =>
    intro _ _
    rfl
  | case3 n cs w hw ih =>
    intro hm hp
    have hw2 : 2 ≤ countNl (cs.takeWhile isPyWS) := hw
    have hmem : '\n' ∈ cs.takeWhile isPyWS := by
      by_contra hnm
      have h0 := countNl_eq_zero.mpr hnm
      omega
    have hlen : (afterLastNl (cs.takeWhile isPyWS) ++
        cs.drop (cs.takeWhile isPyWS).length).length ≤ n := by
      have := cont_len hmem
      simp only [List.length_cons] at hm
      omega
    have hcontp : p1free (afterLastNl (cs.takeWhile isPyWS) ++
        cs.drop (cs.takeWhile isPyWS).length) = true := by
      refine p1free_append_noeq ?_ (p1free_drop _ (p1free_tail hp))
      intro d hd
      exact ws_ne_eq (mem_takeWhile_pred (mem_afterLastNl hd))
    simp only [step2F, if_pos rfl, if_pos hw, if_true]
    exact p1free_cons (fun he => absurd he (by decide))
      (p1free_cons (fun he => absurd he (by decide)) (ih hlen hcontp))
  | case4 n cs w hw ih =>
    intro hm hp
    simp only [step2F, if_pos rfl, if_neg hw, if_true]
    exact p1free_cons (fun he => absurd he (by decide))
      (ih (Nat.le_of_succ_le_succ hm) (p1free_tail hp))
  | case5 n c cs hc ih =>
    intro hm hp
    simp only [step2F, if_neg hc]
    refine p1free_cons ?_ (ih (Nat.le_of_succ_le_succ hm) (p1free_tail hp))
    intro he
    subst he
    exact step2F_wsPre n cs (Nat.le_of_succ_le_succ hm) (p1free_head hp)

theorem hws_ws {c : Char} (h : isHWS c = true) : isPyWS c = true := by
  simp only [isHWS, Bool.and_eq_true] at h
  exact h.1.1

theorem hws_ne_nl {c : Char} (h : isHWS c = true) : ¬c = '\n' := by
  simp only [isHWS, Bool.and_eq_true] at h
  simpa using h.1.2

theorem p3free_pair {c d : Char} {rest : List Char}
    (h : p3free (c :: d :: rest) = true) (hc : isHWS c = true) :
    c = ' ' ∧ isHWS d = false := by
  simp only [p3free, if_pos hc, Bool.and_eq_true, decide_eq_true_eq] at h
  exact ⟨h.1.1, by simpa using h.1.2⟩

theorem step3_cons_nonhws {d : Char} (rest : List Char)
    (hd : isHWS d = false) : ∃ t, step3 (d :: rest) = d :: t := by
  cases rest with
  | nil => exact ⟨[], by simp [step3, hd]⟩
  | cons e r => exact ⟨step3 (e :: r), by simp [step3, hd]⟩

/-- Step 3 does not increase the newline count of the leading whitespace
run. -/
theorem step3_countNl : ∀ (s : List Char),
    countNl ((step3 s).takeWhile isPyWS) ≤ countNl (s.takeWhile isPyWS) := by
  intro s
  induction s using step3.induct with
  | case1 => exact Nat.le_refl _
  | case2 c hc =>
    simp only [step3, if_pos hc]
    exact Nat.le_trans (Nat.le_of_eq (by decide)) (Nat.zero_le _)
  | case3 c hc =>
    simp only [step3, if_neg hc]
    exact Nat.le_refl _
  | case4 c d rest hc hd ih =>
    simp only [step3, if_pos hc, if_pos hd]
    rw [List.takeWhile_cons_of_pos (hws_ws hc), countNl_cons,
      if_neg (hws_ne_nl hc)]
    omega
  | case5 c d rest hc hd ih =>
    simp only [step3, if_pos hc, if_neg hd]
    rw [List.takeWhile_cons_of_pos (by decide), countNl_cons,
      if_neg (by decide), List.takeWhile_cons_of_pos (hws_ws hc),
      countNl_cons, if_neg (hws_ne_nl hc)]
    omega
  | case6 c d rest hc ih =>
    simp only [step3, if_neg hc]
    by_cases hws : isPyWS c
    · rw [List.takeWhile_cons_of_pos hws, List.takeWhile_cons_of_pos hws,
        countNl_cons, countNl_cons]
      by_cases he : c = '\n'
      · rw [if_pos he]
        omega
      · rw [if_neg he]
        omega
    · rw [List.takeWhile_cons_of_neg (by simpa using hws)]
      show countNl [] ≤ _
      rw [countNl_eq_zero.mpr (by simp)]
      exact Nat.zero_le _

theorem step3_wsPre {s : List Char} (h : '\n' ∉ s.takeWhile isPyWS) :
    '\n' ∉ (step3 s).takeWhile isPyWS := by
  have h0 := countNl_eq_zero.mpr h
  have := step3_countNl s
  exact countNl_eq_zero.mp (by omega)

/-- Step 3 establishes freedom from its own pattern. -/
theorem step3_p3free : ∀ (s : List Char), p3free (step3 s) = true := by
  intro s
  induction s using step3.induct with
  | case1 => rfl
  | case2 c hc =>
    simp only [step3, if_pos hc]
    decide
  | case3 c hc =>
    have hcf : isHWS c = false := by simpa using hc
    simp [step3, hcf, p3free]
  | case4 c d rest hc hd ih =>
    simp only [step3, if_pos hc, if_pos hd]
    exact ih
  | case5 c d rest hc hd ih =>
    simp only [step3, if_pos hc, if_neg hd]
    refine p3free_cons_space ih ?_
    have hdf : isHWS d = false := by simpa using hd
    obtain ⟨t, ht⟩ := step3_cons_nonhws rest hdf
    intro e he
    rw [ht] at he
    simp only [List.head?_cons, Option.some.injEq] at he
    exact he ▸ hdf
  | case6 c d rest hc ih =>
    simp only [step3, if_neg hc]
    exact p3free_cons_nonhws (by simpa using hc) ih

/-- Step 3 preserves freedom from the step-1 pattern. -/
theorem step3_p1free : ∀ {s : List Char}, p1free s = true →
    p1free (step3 s) = true := by
  intro s
  induction s using step3.induct with
  | case1 => intro _; rfl
  | case2 c hc =>
    intro _
    simp only [step3, if_pos hc]
    decide
  | case3 c hc =>
    intro _
    simp only [step3, if_neg hc]
    refine p1free_cons (fun _ => ?_) rfl
    simp
  | case4 c d rest hc hd ih =>
    intro hp
    simp only [step3, if_pos hc, if_pos hd]
    exact ih (p1free_tail hp)
  | case5 c d rest hc hd ih =>
    intro hp
    simp only [step3, if_pos hc, if_neg hd]
    exact p1free_cons (fun he => absurd he (by decide))
      (ih (p1free_tail hp))
  | case6 c d rest hc ih =>
    intro hp
    simp only [step3, if_neg hc]
    refine p1free_cons ?_ (ih (p1free_tail hp))
    intro he
    subst he
    exact step3_wsPre (p1free_head hp)

/-- Step 3 preserves freedom from the step-2 pattern. -/
theorem step3_p2free : ∀ {s : List Char}, p2free s = true →
    p2free (step3 s) = true := by
  intro s
  induction s using step3.induct with
  | case1 => intro _; rfl
  | case2 c hc =>
    intro _
    simp only [step3, if_pos hc]
    decide
  | case3 c hc =>
    intro _
    simp only [step3, if_neg hc]
    exact p2free_cons (fun _ => by decide) rfl
  | case4 c d rest hc hd ih =>
    intro hp
    simp only [step3, if_pos hc, if_pos hd]
    exact ih (p2free_tail hp)
  | case5 c d rest hc hd ih =>
    intro hp
    simp only [step3, if_pos hc, if_neg hd]
    exact p2free_cons (fun he => absurd he (by decide))
      (ih (p2free_tail hp))
  | case6 c d rest hc ih =>
    intro hp
    simp only [step3, if_neg hc]
    refine p2free_cons ?_ (ih (p2free_tail hp))
    intro he
    subst he
    have hbig := p2free_head hp
    have := step3_countNl (d :: rest)
    omega

/-- Step 4 does not increase the newline count of the leading whitespace
run. -/
theorem step4_countNl : ∀ (s : List Char),
    countNl ((step4 s).takeWhile isPyWS) ≤ countNl (s.takeWhile isPyWS) := by
  intro s
  induction s using step4.induct with
  | case1 => exact Nat.le_refl _
  | case2 cs hmatch ih =>
    simp only [step4, if_pos rfl, if_pos hmatch, if_true]
    rw [List.takeWhile_cons_of_pos (by decide), countNl_cons,
      if_neg (by decide)]
    omega
  | case3 cs hmatch ih =>
    simp only [step4, if_pos rfl, if_neg hmatch, if_true]
    rw [List.takeWhile_cons_of_pos (by decide),
      List.takeWhile_cons_of_pos (by decide), countNl_cons, countNl_cons,
      if_neg (by decide)]
    omega
  | case4 c cs hc ih =>
    simp only [step4, if_neg hc]
    by_cases hws : isPyWS c
    · rw [List.takeWhile_cons_of_pos hws, List.takeWhile_cons_of_pos hws,
        countNl_cons, countNl_cons]
      by_cases he : c = '\n'
      · rw [if_pos he]
        omega
      · rw [if_neg he]
        omega
    · rw [List.takeWhile_cons_of_neg (by simpa using hws)]
      show countNl [] ≤ _
      rw [countNl_eq_zero.mpr (by simp)]
      exact Nat.zero_le _

theorem step4_wsPre {s : List Char} (h : '\n' ∉ s.takeWhile isPyWS) :
    '\n' ∉ (step4 s).takeWhile isPyWS := by
  have h0 := countNl_eq_zero.mpr h
  have := step4_countNl s
  exact countNl_eq_zero.mp (by omega)

/-- When no newline follows the spaces at the head of `rest`, the head of
`step4 rest` is not a newline. -/
theorem step4_head_not_nl : ∀ (rest : List Char),
    ¬(rest.dropWhile (fun d => d = ' ')).head? = some '\n' →
    ¬(step4 rest).head? = some '\n' := by
  intro rest
  induction rest with
  | nil =>
    intro _ h
    cases h
  | cons d rest2 ih =>
    intro hm
    by_cases hd : d = ' '
    · subst hd
      rw [List.dropWhile_cons_of_pos (by simp)] at hm
      simp only [step4, if_pos rfl, if_true]
      rw [if_neg hm]
      intro h
      simp only [List.head?_cons, Option.some.injEq] at h
      exact absurd h.symm (by decide)
    · rw [List.dropWhile_cons_of_neg (by simpa using hd)] at hm
      simp only [step4, if_neg hd]
      intro h
      simp only [List.head?_cons, Option.some.injEq] at h
      exact hm (by rw [h]; rfl)

/-- Step 4 establishes freedom from its own pattern. -/
theorem step4_p4free : ∀ (s : List Char), p4free (step4 s) = true := by
  intro s
  induction s using step4.induct with
  | case1 => rfl
  | case2 cs hmatch ih =>
    simp only [step4, if_pos rfl, if_pos hmatch, if_true]
    exact ih
  | case3 cs hmatch ih =>
    simp only [step4, if_pos rfl, if_neg hmatch, if_true]
    exact p4free_cons_space (step4_head_not_nl cs hmatch) ih
  | case4 c cs hc ih =>
    simp only [step4, if_neg hc]
    exact p4free_cons_nonspace hc ih

/-- Step 4 preserves freedom from the step-1 pattern. -/
theorem step4_p1free : ∀ {s : List Char}, p1free s = true →
    p1free (step4 s) = true := by
  intro s
  induction s using step4.induct with
  | case1 => intro _; rfl
  | case2 cs hmatch ih =>
    intro hp
    simp only [step4, if_pos rfl, if_pos hmatch, if_true]
    exact ih (p1free_tail hp)
  | case3 cs hmatch ih =>
    intro hp
    simp only [step4, if_pos rfl, if_neg hmatch, if_true]
    exact p1free_cons (fun he => absurd he (by decide))
      (ih (p1free_tail hp))
  | case4 c cs hc ih =>
    intro hp
    simp only [step4, if_neg hc]
    refine p1free_cons ?_ (ih (p1free_tail hp))
    intro he
    subst he
    exact step4_wsPre (p1free_head hp)

/-- Step 4 preserves freedom from the step-2 pattern. -/
theorem step4_p2free : ∀ {s : List Char}, p2free s = true →
    p2free (step4 s) = true := by
  intro s
  induction s using step4.induct with
  | case1 => intro _; rfl
  | case2 cs hmatch ih =>
    intro hp
    simp only [step4, if_pos rfl, if_pos hmatch, if_true]
    exact ih (p2free_tail hp)
  | case3 cs hmatch ih =>
    intro hp
    simp only [step4, if_pos rfl, if_neg hmatch, if_true]
    exact p2free_cons (fun he => absurd he (by decide))
      (ih (p2free_tail hp))
  | case4 c cs hc ih =>
    intro hp
    simp only [step4, if_neg hc]
    refine p2free_cons ?_ (ih (p2free_tail hp))
    intro he
    subst he
    have := step4_countNl cs
    have := p2free_head hp
    omega

/-- Step 4 preserves freedom from the step-3 pattern. -/
theorem step4_p3free : ∀ {s : List Char}, p3free s = true →
    p3free (step4 s) = true := by
  intro s
  induction s using step4.induct with
  | case1 => intro _; rfl
  | case2 cs hmatch ih =>
    intro hp
    simp only [step4, if_pos rfl, if_pos hmatch, if_true]
    exact ih (p3free_tail hp)
  | case3 cs hmatch ih =>
    intro hp
    simp only [step4, if_pos rfl, if_neg hmatch, if_true]
    refine p3free_cons_space (ih (p3free_tail hp)) ?_
    cases cs with
    | nil =>
      intro e he
      cases he
    | cons d cs2 =>
      have hd : isHWS d = false := (p3free_pair hp (by decide)).2
      have hdne : ¬d = ' ' := by
        intro he
        rw [he] at hd
        exact absurd hd (by decide)
      intro e he
      simp only [step4, if_neg hdne, List.head?_cons,
        Option.some.injEq] at he
      exact he ▸ hd
  | case4 c cs hc ih =>
    intro hp
    cases cs with
    | nil =>
      simpa [step4, hc] using hp
    | cons d cs2 =>
      simp only [step4, if_neg hc]
      have hcf : isHWS c = false := by
        by_cases hcw : isHWS c
        · exact absurd (p3free_pair hp hcw).1 hc
        · simpa using hcw
      exact p3free_cons_nonhws hcf (ih (p3free_tail hp))

/-- `str.strip()` leaves no leading or trailing whitespace. -/
theorem strippedWS_stripWS (s : List Char) : strippedWS (stripWS s) = true := by
  rw [strippedWS, Bool.and_eq_true]
  constructor
  · have h1 : (stripWS s).head? =
        ((s.dropWhile isPyWS).reverse.dropWhile isPyWS).getLast? := by
      rw [stripWS, List.head?_reverse]
    cases hql : (s.dropWhile isPyWS).reverse.dropWhile isPyWS with
    | nil =>
      rw [hql] at h1
      rw [h1]
      rfl
    | cons c q' =>
      obtain ⟨w, hw⟩ := List.dropWhile_suffix
        (l := (s.dropWhile isPyWS).reverse) (p := isPyWS)
      rw [hql] at hw
      have h2 : ((s.dropWhile isPyWS).reverse.dropWhile isPyWS).getLast? =
          (s.dropWhile isPyWS).reverse.getLast? := by
        rw [hql, ← hw]
        exact (List.getLast?_append_of_ne_nil _ (by simp)).symm
      rw [h2, List.getLast?_reverse] at h1
      cases hr : (s.dropWhile isPyWS).head? with
      | none =>
        rw [hr] at h1
        rw [h1]
      | some c0 =>
        rw [hr] at h1
        rw [h1]
        simpa using head_dropWhile_not isPyWS s hr
  · have h2 : (stripWS s).getLast? =
        ((s.dropWhile isPyWS).reverse.dropWhile isPyWS).head? := by
      rw [stripWS, List.getLast?_reverse]
    cases hc : ((s.dropWhile isPyWS).reverse.dropWhile isPyWS).head? with
    | none =>
      rw [hc] at h2
      rw [h2]
    | some c =>
      rw [hc] at h2
      rw [h2]
      simpa using head_dropWhile_not isPyWS (s.dropWhile isPyWS).reverse hc

/-- C6: the Whitespace Normalizer — the rewrite sequence of `_clean_html`
lines 183-192 (soft-wrap removal, blank-line collapsing,
horizontal-whitespace collapsing, trailing-space stripping, outer trim) —
is idempotent: applying it twice yields the same result as applying it
once, for every input text. -/
theorem claim_C6 : ∀ (s : List Char), normWS (normWS s) = normWS s := by
  intro s
  have h1 : p1free (step1 s) = true := step1F_p1free _ _ (Nat.le_refl _)
  have h1b : p1free (step2 (step1 s)) = true :=
    step2F_p1free _ _ (Nat.le_refl _) h1
  have h2 : p2free (step2 (step1 s)) = true :=
    step2F_p2free _ _ (Nat.le_refl _)
  have h1c := step3_p1free h1b
  have h2c := step3_p2free h2
  have h3 := step3_p3free (step2 (step1 s))
  have h1d := step4_p1free h1c
  have h2d := step4_p2free h2c
  have h3d := step4_p3free h3
  have h4 := step4_p4free (step3 (step2 (step1 s)))
  have h1e := p1free_stripWS h1d
  have h2e := p2free_stripWS h2d
  have h3e := p3free_stripWS h3d
  have h4e := p4free_stripWS h4
  have h5 := strippedWS_stripWS (step4 (step3 (step2 (step1 s))))
  show stripWS (step4 (step3 (step2 (step1 (normWS s))))) = normWS s
  have e1 : step1 (normWS s) = normWS s :=
    step1F_id _ _ (Nat.le_refl _) h1e
  rw [e1]
  have e2 : step2 (normWS s) = normWS s :=
    step2F_id _ _ (Nat.le_refl _) h2e
  rw [e2]
  have e3 : step3 (normWS s) = normWS s := step3_id h3e
  rw [e3]
  have e4 : step4 (normWS s) = normWS s := step4_id h4e
  rw [e4]
  exact stripWS_id_of_stripped h5

theorem takeWhile_all_append {p : Char → Bool} {x y : List Char}
    (hx : ∀ c ∈ x, p c = true) (hy : y.takeWhile p = []) :
    (x ++ y).takeWhile p = x := by
  rw [List.takeWhile_append]
  have hxx : x.takeWhile p = x :=
    takeWhile_eq_self_of_all (List.all_eq_true.mpr hx)
  rw [if_pos (by rw [hxx]), hy, List.append_nil]

theorem afterLastNl_last {u0 v : List Char} (hvn : '\n' ∉ v) :
    afterLastNl (u0 ++ '\n' :: v) = v := by
  unfold afterLastNl
  have hsh : (u0 ++ '\n' :: v).reverse =
      v.reverse ++ '\n' :: u0.reverse := by
    rw [List.reverse_append, List.reverse_cons, List.append_assoc,
      List.singleton_append]
  rw [hsh, takeWhile_all_append ?hx ?hy, List.reverse_reverse]
  case hx =>
    intro c hc
    rw [List.mem_reverse] at hc
    simp only [Bool.not_eq_true']
    exact decide_eq_false (fun he => hvn (he ▸ hc))
  case hy =>
    rw [List.takeWhile_cons_of_neg (by simp)]

/-- The fuel argument of the step-1 scanner is irrelevant once it covers the
input length. -/
theorem step1F_fuel : ∀ (n m : Nat) (s : List Char), s.length ≤ n →
    s.length ≤ m → step1F n s = step1F m s := by
  intro n
  induction n with
  | zero =>
    intro m s hn _
    have hs : s = [] := List.length_eq_zero.mp (Nat.le_zero.mp hn)
    subst hs
    cases m with
    | zero => rfl
    | succ m' => rfl
  | succ n' ih =>
    intro m s hn hm
    cases m with
    | zero =>
      have hs : s = [] := List.length_eq_zero.mp (Nat.le_zero.mp hm)
      subst hs
      rfl
    | succ m' =>
      cases s with
      | nil => rfl
      | cons c cs =>
        simp only [List.length_cons] at hn hm
        by_cases hc : c = '='
        · subst hc
          by_cases hw : '\n' ∈ cs.takeWhile isPyWS
          · have hlen := cont_len hw
            simp only [step1F, if_pos rfl, if_pos hw, if_true]
            exact ih m' _ (by omega) (by omega)
          · simp only [step1F, if_pos rfl, if_neg hw, if_true]
            rw [ih m' cs (by omega) (by omega)]
        · simp only [step1F, if_neg hc]
          rw [ih m' cs (by omega) (by omega)]

/-- The step-1 scanner copies a whitespace run verbatim (no `=` inside). -/
theorem step1F_copy_ws : ∀ (v r : List Char), (∀ c ∈ v, isPyWS c = true) →
    step1F (v ++ r).length (v ++ r) = v ++ step1F r.length r := by
  intro v
  induction v with
  | nil =>
    intro r _
    simp
  | cons c v' ih =>
    intro r hws
    have hcne : ¬c = '=' := ws_ne_eq (hws c (List.mem_cons_self _ _))
    simp only [List.cons_append, List.length_cons, step1F, if_neg hcne,
      List.append_eq]
    rw [ih r (fun d hd => hws d (List.mem_cons_of_mem _ hd))]

/-- The source deletes `=` and the whitespace run through the run's *last*
newline (greedy `\s*`), while the claim deletes only through the first: they
differ on `"=\n\nx"`. -/
theorem claim_C8_counterexample :
    step1 "=\n\nx".data = "x".data ∧
      step1Claim "=\n\nx".data = "\n".data ++ "x".data ∧
      ¬step1 "=\n\nx".data = step1Claim "=\n\nx".data := by
  refine ⟨rfl, rfl, ?_⟩
  decide

/-- C8 (amended): in the Whitespace Normalizer's first rewrite, an `=`
followed by a whitespace run containing a line break is deleted together
with the run *through the run's last line break* (the greedy `=\s*\n`
match), leaving the run's newline-free residue; the scanner then continues
on the untouched remainder.  The claim's reading — deletion stops at the
first line break and consumes no further — does not match the code (see the
counterexample). -/
theorem claim_C8 (u v r : List Char)
    (hu : ∀ c ∈ u, isPyWS c = true) (hv : ∀ c ∈ v, isPyWS c = true)
    (hvn : '\n' ∉ v) (hr : r.takeWhile isPyWS = []) :
    step1 ('=' :: (u ++ '\n' :: (v ++ r))) = v ++ step1 r := by
  have hassoc : u ++ '\n' :: (v ++ r) = (u ++ '\n' :: v) ++ r := by simp
  have hall : ∀ c ∈ u ++ '\n' :: v, isPyWS c = true := by
    intro c hc
    rcases List.mem_append.mp hc with hcu | hcv
    · exact hu c hcu
    · rcases List.mem_cons.mp hcv with he | hcv2
      · rw [he]
        rfl
      · exact hv c hcv2
  have hw_eq : (u ++ '\n' :: (v ++ r)).takeWhile isPyWS =
      u ++ '\n' :: v := by
    rw [hassoc]
    exact takeWhile_all_append hall hr
  have hmem : '\n' ∈ (u ++ '\n' :: (v ++ r)).takeWhile isPyWS := by
    rw [hw_eq]
    exact List.mem_append_right _ (List.mem_cons_self _ _)
  have hafter : afterLastNl ((u ++ '\n' :: (v ++ r)).takeWhile isPyWS) =
      v := by
    rw [hw_eq]
    exact afterLastNl_last hvn
  have hdrop : (u ++ '\n' :: (v ++ r)).drop
      ((u ++ '\n' :: (v ++ r)).takeWhile isPyWS).length = r := by
    rw [hw_eq]
    conv_lhs => rw [hassoc]
    exact List.drop_left _ _
  show step1F ('=' :: (u ++ '\n' :: (v ++ r))).length
      ('=' :: (u ++ '\n' :: (v ++ r))) = v ++ step1 r
  rw [List.length_cons]
  have hstep : step1F ((u ++ '\n' :: (v ++ r)).length + 1)
      ('=' :: (u ++ '\n' :: (v ++ r))) =
      step1F (u ++ '\n' :: (v ++ r)).length
        (afterLastNl ((u ++ '\n' :: (v ++ r)).takeWhile isPyWS) ++
          (u ++ '\n' :: (v ++ r)).drop
            ((u ++ '\n' :: (v ++ r)).takeWhile isPyWS).length) := by
    simp only [step1F, if_pos rfl, if_pos hmem, if_true]
  rw [hstep, hafter, hdrop]
  rw [step1F_fuel _ ((v ++ r).length) _
    (by simp [List.length_append]; omega) (Nat.le_refl _)]
  rw [step1F_copy_ws v r hv]
  rfl

/-- Witness for the amended C8 at `'=' :: " \n x"`: the `=`, the space and
the newline are deleted, the post-newline space survives. -/
theorem claim_C8_witness :
    (∀ c ∈ [' '], isPyWS c = true) ∧ '\n' ∉ [' '] ∧
      "x".data.takeWhile isPyWS = [] ∧
      step1 ('=' :: ([' '] ++ '\n' :: ([' '] ++ "x".data))) =
        [' '] ++ step1 "x".data :=
  ⟨by decide, by decide, by decide,
    claim_C8 [' '] [' '] "x".data (by decide) (by decide) (by decide)
      (by decide)⟩
